import Mathlib

/-!
# Verification of the `memfs` in-memory filesystem

A shallow embedding, in Lean 4, of the core of the `memfs` Go package
(an in-memory hierarchical filesystem), together with theorems settling
the specification claims about it.

The embedding mirrors the Go source:
* `src/file.go` — the file-handle state machine (`file`, `validTo`,
  `Read`/`ReadAt`/`ReadByte`/`UnreadByte`/`Seek`/`Close`);
* `src/file_rw.go` — the mutable file handle's buffer-growth routine
  (`fileRW.grow`);
* `src/directory.go` — directory handles and `ReadDir`;
* `src/resolve.go` — the path/symlink resolver;
* `src/directory_rw.go`, `src/file_rw.go`, `src/memfs_rw.go` — the sealing
  operation and the mutating facade (`mkdir`, `MkdirAll`, `Rename`).

Go machine integers are modelled as `Nat`/`Int` (with explicit wrap-around
where overflow is reachable); Go byte slices as `List Nat`; Go strings as
`List Char` where index arithmetic matters and as `String` for error tags;
fallible Go functions return `Except`/`Option`.
-/

set_option maxRecDepth 40000

namespace Memfs

/-- The error taxonomy of the package: the sentinel errors of Go's `io/fs`
and `io` packages (`ErrNotExist`, `ErrExist`, `ErrPermission`, `ErrInvalid`,
`ErrClosed`, `io.EOF`) plus the `fs.PathError` wrapper `{Op, Path, Err}`. -/
inductive Err where
  | notExist
  | exist
  | permission
  | invalid
  | closed
  | eof
  | pathError (op : String) (path : String) (err : Err)
deriving DecidableEq

/-- `opClose opMode = 0` (src/file.go line 13). -/
def opClose : Nat := 0

/-- `opRead = 1 << iota` with `iota = 1` (src/file.go line 14). -/
def opRead : Nat := 2

/-- `opWrite` (src/file.go line 15): `1 << 2`. -/
def opWrite : Nat := 4

/-- `opSeek` (src/file.go line 16): `1 << 3`. -/
def opSeek : Nat := 8

/-- `modeRead = 0o444`: the read-permission mask (spec section 3; used at
src/resolve.go line 29, src/directory_rw.go line 15). -/
def modeRead : Nat := 0o444

/-- `modeWrite = 0o222`: the write-permission mask. -/
def modeWrite : Nat := 0o222

/-- Wrap-around of Go `int64` arithmetic: the result of an int64 operation,
reduced into the interval `[-2^63, 2^63)`. -/
def wrap64 (x : Int) : Int := (x + 2 ^ 63) % 2 ^ 64 - 2 ^ 63

/-- The open file handle of src/file.go lines 61-67: a `file` holds its
name, the fields of the underlying `inode` (`modtime`, `data`, `mode`),
the operation-capability set `opMode`, the unread marker `lastRead`
(a `uint8`) and the byte cursor `pos` (an `int64`). -/
structure File where
  name : String
  modtime : Nat
  data : List Nat
  mode : Nat
  opMode : Nat
  lastRead : Nat
  pos : Int
deriving DecidableEq

/-- `file.validTo` (src/file.go lines 69-91): the precondition check run
by every handle operation. Returns the error it would produce, if any. -/
def validTo (f : File) (op : String) (m : Nat) (needValidPos : Bool) : Option Err :=
  if f.opMode = opClose then some (.pathError op f.name .closed)
  else if f.opMode &&& m ≠ m then some (.pathError op f.name .invalid)
  else if needValidPos ∧ (f.data.length : Int) ≤ f.pos then some .eof
  else none

/-- `file.ReadByte` (src/file.go lines 132-143). The Go code indexes
`f.data[f.pos]`; in every state reachable through the handle API `pos` is
nonnegative (Go would panic otherwise), so `Int.toNat` is faithful there. -/
def readByte (f : File) : Except Err Nat × File :=
  match validTo f "readbyte" opRead true with
  | some e => (.error e, f)
  | none => (.ok (f.data.getD f.pos.toNat 0), { f with pos := f.pos + 1, lastRead := 1 })

/-- `file.UnreadByte` (src/file.go lines 145-162). -/
def unreadByte (f : File) : Except Err Unit × File :=
  match validTo f "unreadbyte" (opRead ||| opSeek) false with
  | some e => (.error e, f)
  | none =>
    if f.lastRead ≠ 1 then (.error (.pathError "unreadbyte" f.name .invalid), f)
    else (.ok (), { f with lastRead := 0, pos := f.pos - 1 })

/-- `file.ReadAt` (src/file.go lines 114-130). The destination slice `p` is
modelled by its length `k`; the result carries the bytes copied (of length
`n = copy(p, f.data[off:])`) together with the error, mirroring Go's
`(int, error)` pair where a short read at the tail also reports `io.EOF`. -/
def readAt (f : File) (k : Nat) (off : Int) : (List Nat × Option Err) × File :=
  match validTo f "readat" (opRead ||| opSeek) false with
  | some e => (([], some e), f)
  | none =>
    if (f.data.length : Int) ≤ off then (([], some .eof), f)
    else
      let bs := (f.data.drop off.toNat).take k
      if bs.length < k then ((bs, some .eof), f) else ((bs, none), f)

/-- `file.Seek` (src/file.go lines 208-241). `whence` is a Go `int`; the
additions for `SeekCurrent` and `SeekEnd` are `int64` additions, so they
wrap. The result is Go's `(int64, error)` pair plus the new state. -/
def seek (f : File) (offset : Int) (whence : Int) : (Int × Option Err) × File :=
  match validTo f "seek" opSeek false with
  | some e => ((0, some e), f)
  | none =>
    let newPos? : Option Int :=
      if whence = 0 then some offset
      else if whence = 1 then some (wrap64 (f.pos + offset))
      else if whence = 2 then some (wrap64 ((f.data.length : Int) + offset))
      else none
    match newPos? with
    | none => ((0, some (.pathError "seek" f.name .invalid)), f)
    | some p =>
      let f1 : File := { f with pos := p, lastRead := 0 }
      if f1.pos < 0 then
        ((0, some (.pathError "seek" f.name .invalid)), { f1 with pos := 0 })
      else ((f1.pos, none), f1)

/-- `file.Close` (src/file.go lines 243-251): records the error of
`validTo("close", opClose, false)`, then unconditionally marks the handle
closed and zeroes `pos` and `lastRead`. -/
def close (f : File) : Option Err × File :=
  (validTo f "close" opClose false, { f with opMode := opClose, pos := 0, lastRead := 0 })

/-- The byte buffer of a mutable file, with its backing array made
explicit: a Go slice `data` of length `len` over an underlying array
`arr`, whose length is the slice's capacity (`cap(data) = arr.length`).
The visible bytes are `arr.take len`. -/
structure Buffer where
  arr : List Nat
  len : Nat
deriving DecidableEq

/-- `fileRW.grow` (src/file_rw.go lines 161-176). When `size` exceeds the
current length: if `size < cap(f.data)` the slice is resliced in place
(`f.data = f.data[:size]`, exposing the existing array bytes); otherwise a
fresh zeroed array is allocated — capacity `size * 2` while the current
length is below 512, `size + size/4` beyond — and the `len` prior visible
bytes are copied in. -/
def grow (b : Buffer) (size : Nat) : Buffer :=
  if b.len < size then
    if size < b.arr.length then { b with len := size }
    else
      let newCap := if b.len < 512 then size * 2 else size + size / 4
      { arr := b.arr.take b.len ++ List.replicate (newCap - b.len) 0, len := size }
  else b

/-- `fs.ModeDir` (Go `io/fs`): bit 31. -/
def fsModeDir : Nat := 2 ^ 31

/-- `fs.ModeSymlink` (Go `io/fs`): bit 27. -/
def fsModeSymlink : Nat := 2 ^ 27

/-- The node graph of the filesystem (spec section 3): every object is a
file inode (`{modtime, data, mode}`, where `data` is the contents or the
symlink target) or a dnode (`{entries, modtime, mode}` with `entries` an
ordered list of name/node pairs). The `rw` flag records whether the node
is wrapped in its mutable, lock-carrying form (`inodeRW` of src/file_rw.go,
`dnodeRW` of src/directory_rw.go) or is a plain node (src/file.go,
src/directory.go); the mutable wrappers delegate every read to the plain
node they embed. Names and payloads are Go strings/byte-slices, modelled
as `List Char`. -/
inductive Node where
  | inode (rw : Bool) (modtime : Nat) (data : List Char) (mode : Nat)
  | dnode (rw : Bool) (entries : List (List Char × Node)) (modtime : Nat) (mode : Nat)

/-- `Mode()` of a directory entry: both node kinds return their `mode`
field (src/file.go line 265, src/directory.go line 200; the RW wrappers
delegate under their lock). -/
def Node.modeOf : Node → Nat
  | .inode _ _ _ m => m
  | .dnode _ _ _ m => m

/-- `ModTime()` of a directory entry (src/file.go line 269,
src/directory.go line 204). -/
def Node.modtimeOf : Node → Nat
  | .inode _ mt _ _ => mt
  | .dnode _ _ mt _ => mt

/-- The byte payload visible through `bytes()` before its permission
check: an inode's `data`; a dnode has none. -/
def Node.dataOf : Node → Option (List Char)
  | .inode _ _ d _ => some d
  | .dnode .. => none

/-- The linear search of `dnode.getEntry` (src/directory.go lines 68-72):
first entry whose name matches. -/
def findEntry : List (List Char × Node) → List Char → Option (List Char × Node)
  | [], _ => none
  | de :: rest, name => if de.1 = name then some de else findEntry rest name

/-- `directoryEntry.getEntry(name)`: a dnode checks `modeRead` and searches
its entries (src/directory.go lines 63-75, `dnodeRW` delegating at
src/directory_rw.go lines 28-33); an inode returns `ErrInvalid`
(src/file.go lines 57-59). -/
def getEntry (n : Node) (name : List Char) : Except Err (List Char × Node) :=
  match n with
  | .inode .. => .error .invalid
  | .dnode _ es _ m =>
    if m &&& modeRead = 0 then .error .permission
    else
      match findEntry es name with
      | some de => .ok de
      | none => .error .notExist

/-- Modelled from the spec: `directoryEntry.string()`, the payload-as-string
accessor called by the resolver on a symlink (src/resolve.go line 74). The
plain inode's implementation is not among the files under src — only the
delegating `inodeRW.string` (src/unnamed/part_015 line 42) — so the inode
case follows spec section 4.4: payload access, `Permission` if `modeRead`
is absent. A dnode returns `ErrInvalid` (src/unnamed/part_012 line 359). -/
def nodeString : Node → Except Err (List Char)
  | .inode _ _ d m => if m &&& modeRead = 0 then .error .permission else .ok d
  | .dnode .. => .error .invalid

/-- An open directory handle (src/directory.go lines 131-135): the fields
of the underlying `dnode` plus the handle's name and its cursor `pos`. -/
structure Directory where
  entries : List (List Char × Node)
  modtime : Nat
  mode : Nat
  name : String
  pos : Nat

/-- `dnode.getEntries` (src/directory.go lines 92-104): requires
`modeRead`; returns a fresh slice holding all entries. -/
def getEntries (d : Directory) : Except Err (List (List Char × Node)) :=
  if d.mode &&& modeRead = 0 then .error .permission else .ok d.entries

/-- `directory.ReadDir` (src/directory.go lines 157-186). For `n ≤ 0` it
returns `d.getEntries()` — all entries, cursor untouched. For `n > 0` it
checks `modeRead` (wrapping the error), clamps `n` to the entries left
after `pos` (`left`), reports `io.EOF` when nothing is left, and otherwise
returns the next `n` entries while advancing `pos`. `pos ≤ len(entries)`
in every reachable state (Go would build a negative-length slice
otherwise), so the `Nat` subtraction in `left` is faithful there. -/
def readDir (d : Directory) (n : Int) : Except Err (List (List Char × Node)) × Directory :=
  if n ≤ 0 then (getEntries d, d)
  else if d.mode &&& modeRead = 0 then (.error (.pathError "readdir" d.name .permission), d)
  else
    let left : Nat := d.entries.length - d.pos
    let m : Nat := min n.toNat left
    if m = 0 then (.error .eof, d)
    else (.ok ((d.entries.drop d.pos).take m), { d with pos := d.pos + m })

/-! ## Lexical path helpers (Go `path.Clean`, `path.Join`, `strings.Index`) -/

/-- `strings.Index(s, "/")` generalised: index of the first occurrence of a
character, `none` for Go's `-1`. -/
def charIndex : List Char → Char → Option Nat
  | [], _ => none
  | c :: rest, t => if c = t then some 0 else (charIndex rest t).map (· + 1)

/-- Index of the last occurrence of a character (Go `strings.LastIndex`). -/
def lastIndex : List Char → Char → Option Nat
  | [], _ => none
  | c :: rest, t =>
    match lastIndex rest t with
    | some i => some (i + 1)
    | none => if c = t then some 0 else none

/-- The segments of a path: split on `'/'`, keeping empty segments. -/
def splitSeg : List Char → List Char → List (List Char)
  | [], acc => [acc.reverse]
  | c :: rest, acc => if c = '/' then acc.reverse :: splitSeg rest [] else splitSeg rest (c :: acc)

/-- The segment processing of Go's `path.Clean`: drop empty and `.`
segments; on `..` pop a previous segment, except that at the root extra
`..` are dropped and in a relative path leading `..` are kept. -/
def cleanSegs (rooted : Bool) : List (List Char) → List (List Char) → List (List Char)
  | [], acc => acc.reverse
  | s :: rest, acc =>
    if s = [] ∨ s = ['.'] then cleanSegs rooted rest acc
    else if s = ['.', '.'] then
      match acc with
      | t :: acc2 => if t = ['.', '.'] then cleanSegs rooted rest (s :: t :: acc2) else cleanSegs rooted rest acc2
      | [] => if rooted then cleanSegs rooted rest [] else cleanSegs rooted rest [s]
    else cleanSegs rooted rest (s :: acc)

/-- Interleave segments with `'/'`. -/
def joinSegs : List (List Char) → List Char
  | [] => []
  | [s] => s
  | s :: rest => s ++ '/' :: joinSegs rest

/-- Go `path.Clean` (and, on slash-separated systems, `filepath.Clean`):
shortest lexically-equivalent path — empty and `.` segments collapsed,
`..` resolved against the accumulated prefix, `""` cleaning to `"."`. -/
def clean (p : List Char) : List Char :=
  if p = [] then ['.']
  else
    let rooted := p.head? = some '/'
    let segs := cleanSegs rooted (splitSeg p []) []
    let out := (if rooted then ['/'] else []) ++ joinSegs segs
    if out = [] then ['.'] else out

/-- Go `path.Join` / `filepath.Join`: the non-empty elements joined with
`'/'` and cleaned; empty when every element is empty. -/
def joinPath (elems : List (List Char)) : List Char :=
  let parts := elems.filter (· ≠ [])
  if parts = [] then [] else clean (joinSegs parts)

/-! ## The resolver (src/resolve.go) -/

/-- `maxRedirects`: the initial redirect counter, a `uint8` equal to 255
(`var maxRedirects uint8 = 255`, src/memfs.go line 50). -/
def maxRedirects : Nat := 255

/-- The `resolver` state (src/resolve.go lines 9-13): the full path being
resolved, its unconsumed tail `path`, the number of characters consumed
(`cutAt`) and the remaining redirect budget (a `uint8`, kept below 256). -/
structure Resolver where
  fullPath : List Char
  path : List Char
  cutAt : Nat
  redirectsRemaining : Nat
deriving DecidableEq

/-- `resolver.splitOffNamePart` (src/resolve.go lines 49-62): split the
next segment off `path`, advancing `cutAt` past any consumed slash. -/
def splitOffNamePart (r : Resolver) : List Char × Resolver :=
  match charIndex r.path '/' with
  | none => (r.path, { r with path := [] })
  | some slashPos =>
    (r.path.take slashPos,
     { r with path := r.path.drop (slashPos + 1), cutAt := r.cutAt + slashPos + 1 })

/-- `isEmptyName` (src/resolve.go lines 64-66). -/
def isEmptyName (name : List Char) : Bool := name = [] ∨ name = ['.']

/-- `resolver.handleSymlink` (src/resolve.go lines 68-89): decrement the
`uint8` redirect counter (wrapping), fail `Invalid` at zero, read the link
target, and splice it into the path — replacing everything when the target
is absolute, appending to the consumed prefix when the whole path was
consumed, and substituting for the link's own name otherwise. The slice
`fullPath[:cutAt-len(name)-1]` cannot underflow in a reachable state
(that name was split off a slash-terminated segment), matching the `Nat`
truncation used here. -/
def handleSymlink (r : Resolver) (symName : List Char) (sym : Node) : Except Err Resolver :=
  let red := (r.redirectsRemaining + 255) % 256
  if red = 0 then .error .invalid
  else
    match nodeString sym with
    | .error e => .error e
    | .ok symPath =>
      let fullPath :=
        if symPath.head? = some '/' then (clean symPath).drop 1
        else if r.path = [] then joinPath [r.fullPath.take r.cutAt, symPath]
        else joinPath [r.fullPath.take (r.cutAt - symName.length - 1), symPath, r.path]
      .ok { fullPath := fullPath, path := fullPath, cutAt := 0, redirectsRemaining := red }

/-- The outcome of one iteration of the `for` loop of `resolver.resolve`:
either the loop ends with a result or continues with a new current node
and resolver state. -/
inductive StepRes where
  | done (res : Except Err Node)
  | next (curr : Node) (r : Resolver)

/-- One iteration of `resolver.resolve` (src/resolve.go lines 25-47),
including the loop condition: an empty remaining path yields the current
node; otherwise the node must be readable, the next segment is split off
(empty and `.` segments are skipped), looked up, and either descended
into, or — for a symlink — expanded by `handleSymlink` with the walk
restarting at `root`. -/
def resolveStep (root curr : Node) (r : Resolver) : StepRes :=
  if r.path = [] then .done (.ok curr)
  else if curr.modeOf &&& modeRead = 0 then .done (.error .permission)
  else
    match splitOffNamePart r with
    | (name, r1) =>
      if isEmptyName name then .next curr r1
      else
        match getEntry curr name with
        | .error e => .done (.error e)
        | .ok (entName, ent) =>
          if ent.modeOf &&& fsModeSymlink = 0 then .next ent r1
          else
            match handleSymlink r1 entName ent with
            | .error e => .done (.error e)
            | .ok r2 => .next root r2

/-- The `for` loop of `resolver.resolve`, run for at most `fuel`
iterations (`none` when the fuel runs out; the loop itself terminates on
every input, which is the subject of the termination theorem below). -/
def resolveFuel (root : Node) : Nat → Node → Resolver → Option (Except Err Node)
  | 0, _, _ => none
  | fuel + 1, curr, r =>
    match resolveStep root curr r with
    | .done res => some res
    | .next curr2 r2 => resolveFuel root fuel curr2 r2

/-- `fsRO.getEntryWithoutCheck` (src/resolve.go lines 15-23): resolve a
path from the root with a fresh resolver carrying `maxRedirects`. -/
def getEntryWithoutCheck (fuel : Nat) (root : Node) (path : List Char) : Option (Except Err Node) :=
  resolveFuel root fuel root
    { fullPath := path, path := path, cutAt := 0, redirectsRemaining := maxRedirects }

/-! ## Termination of the resolver (claim C1) -/

/-- A root directory holding one symlink `a` whose target is `a` itself. -/
def selfLoopRoot : Node :=
  .dnode true [(['a'], .inode true 0 ['a'] (fsModeSymlink ||| 0o777))] 0 (fsModeDir ||| 0o777)

/-- A root directory with symlinks `a -> b` and `b -> a`. -/
def twoCycleRoot : Node :=
  .dnode true
    [(['a'], .inode true 0 ['b'] (fsModeSymlink ||| 0o777)),
     (['b'], .inode true 0 ['a'] (fsModeSymlink ||| 0o777))]
    0 (fsModeDir ||| 0o777)

/-! ## Sealing (claim C2) -/

mutual

/-- `sealNode()` on a directory entry. `inodeRW.sealNode` (src/file_rw.go lines
55-63) hands out the embedded plain inode, fields unchanged; the plain
`inode.sealNode` returns itself (src/file.go lines 53-55). `dnodeRW.sealNode`
(src/directory_rw.go lines 77-90) replaces every child entry's node by
that child's sealNode, in its slot, and hands out the plain dnode with the
same entries, modtime and mode; the plain `dnode.sealNode` returns itself
(src/unnamed/part_012 line 431). -/
def sealNode : Node → Node
  | .inode _ mt d m => .inode false mt d m
  | .dnode rw es mt m => if rw then .dnode false (sealEntries es) mt m else .dnode rw es mt m

/-- The entry loop of `dnodeRW.sealNode` (src/directory_rw.go lines 83-85). -/
def sealEntries : List (List Char × Node) → List (List Char × Node)
  | [] => []
  | (n, e) :: rest => (n, sealNode e) :: sealEntries rest

end

mutual

/-- The plain-node image of a tree, written from the spec's words
(spec section 4.8 / glossary: sealing is "the one-way transition from the
mutable locked node graph to the plain lock-free node graph"): the same
tree with every wrapper bit cleared, recursively. Stated for comparison
with `sealNode`. -/
def plainImage : Node → Node
  | .inode _ mt d m => .inode false mt d m
  | .dnode _ es mt m => .dnode false (plainImageEntries es) mt m

/-- Pointwise `plainImage` over a dnode's entries. -/
def plainImageEntries : List (List Char × Node) → List (List Char × Node)
  | [] => []
  | (n, e) :: rest => (n, plainImage e) :: plainImageEntries rest

end

mutual

/-- Every node of the tree is in its mutable (`RW`-wrapped) form — the
shape of every tree built through the read-write facade. -/
def allRW : Node → Bool
  | .inode rw _ _ _ => rw
  | .dnode rw es _ _ => rw && allRWEntries es

/-- Pointwise `allRW` over a dnode's entries. -/
def allRWEntries : List (List Char × Node) → Bool
  | [] => true
  | (_, e) :: rest => allRW e && allRWEntries rest

end

/-- The relation between a node of the original tree and the node playing
its role in the sealed tree: the latter is either the sealNode of the former
(below a sealed wrapper) or the former itself (below a plain dnode, whose
sealNode returns it unchanged, children untouched). -/
def SealRel (a b : Node) : Prop := b = sealNode a ∨ b = a

/-- The observation a client makes of the node a path resolves to: the
byte payload (for an inode), the mode and the modtime — the data behind
ReadFile, Stat and the directory listings. -/
def observe (fuel : Nat) (root : Node) (p : List Char) :
    Option (Except Err (Option (List Char) × Nat × Nat)) :=
  (getEntryWithoutCheck fuel root p).map
    (Except.map (fun n => (n.dataOf, n.modeOf, n.modtimeOf)))

/-- A concrete two-entry directory handle (entries `a` and `b`), used to
exercise `ReadDir`. -/
def dirAB : Directory :=
  { entries := [(['a'], .inode false 0 [] 0o644), (['b'], .inode false 0 [] 0o644)],
    modtime := 0, mode := fsModeDir ||| 0o755, name := "d", pos := 0 }

/-- A concrete open file handle with Read and Seek capabilities over the
two bytes 65, 66. -/
def cf : File :=
  { name := "f", modtime := 5, data := [65, 66], mode := 0o644,
    opMode := opRead ||| opSeek, lastRead := 0, pos := 0 }

/-! ## The read-write FS over a heap of nodes (claims C4, C5) -/

/-- `canWrite = 0o222` (src/memfs_rw.go line 305). -/
def canWrite : Nat := 0o222

/-- A heap node: the object behind a Go `directoryEntry` reference — an
inode (payload, modtime, mode) or a dnode whose entries name other heap
nodes by id, mirroring Go pointers so that hard links and in-place
mutation behave as in the source. The lock wrappers (`inodeRW`,
`dnodeRW`) delegate every operation used here, so the wrapper flag is
omitted. -/
inductive HNode where
  | inode (modtime : Nat) (data : List Char) (mode : Nat)
  | dnode (entries : List (List Char × Nat)) (modtime : Nat) (mode : Nat)
deriving DecidableEq

/-- First binding of an id in the heap (a Go pointer dereference). -/
def hfind : List (Nat × HNode) → Nat → Option HNode
  | [], _ => none
  | (i, n) :: rest, id => if i = id then some n else hfind rest id

/-- Replace the first binding of an id (an in-place mutation through a Go
pointer). -/
def hset : List (Nat × HNode) → Nat → HNode → List (Nat × HNode)
  | [], _, _ => []
  | (i, n) :: rest, id, v => if i = id then (i, v) :: rest else (i, n) :: hset rest id v

/-- The read-write FS (src/memfs_rw.go lines 14-17): a root node id and
the heap of live nodes; `nextId` allocates fresh nodes. -/
structure FSH where
  root : Nat
  heap : List (Nat × HNode)
  nextId : Nat
deriving DecidableEq

/-- `New()` (src/memfs_rw.go lines 19-30): a single mutable root dnode
with mode `ModeDir | ModePerm`; its creation time is taken as 0. -/
def newFS : FSH :=
  { root := 0, heap := [(0, .dnode [] 0 (fsModeDir ||| 0o777))], nextId := 1 }

/-- The linear search of `dnode.getEntry` over id-entries
(src/directory.go lines 68-72). -/
def findEntryId : List (List Char × Nat) → List Char → Option (List Char × Nat)
  | [], _ => none
  | de :: rest, name => if de.1 = name then some de else findEntryId rest name

/-- `Mode()` of the heap node with the given id (src/file.go line 265,
src/directory.go line 200); 0 for a dangling id, which does not occur. -/
def hMode (heap : List (Nat × HNode)) (id : Nat) : Nat :=
  match hfind heap id with
  | some (.inode _ _ m) => m
  | some (.dnode _ _ m) => m
  | none => 0

/-- `bytes()` of the heap node with the given id: an inode checks
`modeRead` and yields its payload (src/file.go lines 37-43); a dnode
yields `Invalid` (src/unnamed/part_012 line 355). A dangling id (which
does not occur) also yields `Invalid`. -/
def hBytes (heap : List (Nat × HNode)) (id : Nat) : Except Err (List Char) :=
  match hfind heap id with
  | some (.inode _ d m) => if m &&& modeRead = 0 then .error .permission else .ok d
  | some (.dnode ..) => .error .invalid
  | none => .error .invalid

/-- `dnode.getEntry` on the heap node with id `d` (src/directory.go lines
63-75): a readable dnode searches its entries, else `NotExist`; a
non-readable dnode fails `Permission`; an inode (or dangling) id fails
`Invalid` (src/file.go lines 57-59). -/
def hGetEntry (heap : List (Nat × HNode)) (d : Nat) (name : List Char) :
    Except Err (List Char × Nat) :=
  match hfind heap d with
  | some (.dnode es _ m) =>
    if m &&& modeRead = 0 then .error .permission
    else
      match findEntryId es name with
      | some de => .ok de
      | none => .error .notExist
  | _ => .error .invalid

/-- `dnode.setEntry` on heap id `d` (src/directory.go lines 77-86,
`dnodeRW` delegating): requires `modeWrite`; appends the entry and sets
the modtime to `now`. -/
def hSetEntry (heap : List (Nat × HNode)) (d : Nat) (de : List Char × Nat) (now : Nat) :
    Except Err (List (Nat × HNode)) :=
  match hfind heap d with
  | some (.dnode es _ m) =>
    if m &&& modeWrite = 0 then .error .permission
    else .ok (hset heap d (.dnode (es ++ [de]) now m))
  | _ => .error .invalid

/-- Remove the first entry with the given name, `none` when absent (the
loop of `dnode.removeEntry`, src/directory.go lines 111-118). -/
def removeFirst : List (List Char × Nat) → List Char → Option (List (List Char × Nat))
  | [], _ => none
  | de :: rest, name =>
    if de.1 = name then some rest else (removeFirst rest name).map (de :: ·)

/-- `dnode.removeEntry` on heap id `d` (src/directory.go lines 106-121):
requires `modeWrite`; removes the first entry of that name and sets the
modtime to `now`, else `NotExist`. -/
def hRemoveEntry (heap : List (Nat × HNode)) (d : Nat) (name : List Char) (now : Nat) :
    Except Err (List (Nat × HNode)) :=
  match hfind heap d with
  | some (.dnode es _ m) =>
    if m &&& modeWrite = 0 then .error .permission
    else
      match removeFirst es name with
      | some es2 => .ok (hset heap d (.dnode es2 now m))
      | none => .error .notExist
  | _ => .error .invalid

/-- Go `filepath.Split`: the path up to and including the final separator,
and the part after it. -/
def splitPath (p : List Char) : List Char × List Char :=
  match lastIndex p '/' with
  | none => ([], p)
  | some i => (p.take (i + 1), p.drop (i + 1))

/-- Go `filepath.Base`: the last element of the path after removing
trailing separators; "." for an empty path, "/" for a path of separators
only. -/
def basePath (p : List Char) : List Char :=
  if p = [] then ['.']
  else
    let p1 := (p.reverse.dropWhile (fun c => c = '/')).reverse
    if p1 = [] then ['/']
    else
      match lastIndex p1 '/' with
      | some i => p1.drop (i + 1)
      | none => p1

/-- The base-name step of `FS.getResolvedDirEnt` (src/unnamed/part_016
lines 79-102), with the re-resolution it may perform abstracted as
`recur`: an empty base yields the parent itself; otherwise the parent
must be a dnode, the base is looked up in it, a non-symlink entry is the
result, and a symlink entry — redirect budget permitting — has its
payload spliced against `dir` and re-resolved. -/
def resolveBaseWith (heap : List (Nat × HNode))
    (recur : List Char → Nat → Option (Except Err Nat × Nat))
    (dir base : List Char) (de red : Nat) : Option (Except Err Nat × Nat) :=
  if base = [] then some (.ok de, red)
  else
    match hfind heap de with
    | some (.dnode es _ m) =>
      if m &&& modeRead = 0 then some (.error .permission, red)
      else
        match findEntryId es base with
        | none => some (.error .notExist, red)
        | some c =>
          if hMode heap c.2 &&& fsModeSymlink = 0 then some (.ok c.2, red)
          else if red = 0 then some (.error .invalid, red)
          else
            match hBytes heap c.2 with
            | .error e => some (.error e, red - 1)
            | .ok b =>
              recur (if b.head? = some '/' then b else joinPath [dir, b]) (red - 1)
    | _ => some (.error .invalid, red)

/-- `FS.getResolvedDirEnt` (src/unnamed/part_016 lines 57-103; the HEAD
glue file carrying it is not among the named files under src): resolve a
path to a node id by resolving the parent directory recursively and then
handling the base name (`resolveBaseWith`). The shared redirect counter
is threaded like the Go `*uint8`; `fuel` only bounds the recursion depth
for definability. -/
def getResolvedDirEnt (heap : List (Nat × HNode)) (root : Nat) :
    Nat → List Char → Nat → Option (Except Err Nat × Nat)
  | 0, _, _ => none
  | fuel + 1, path, red =>
    let pr := splitPath path
    match (if pr.1 = [] ∨ pr.1 = ['/'] then
        (if hMode heap root &&& modeRead = 0 then some (.error .permission, red)
         else some (.ok root, red))
      else getResolvedDirEnt heap root fuel (clean pr.1) red) with
    | none => none
    | some (.error e, red2) => some (.error e, red2)
    | some (.ok de, red2) =>
      resolveBaseWith heap (fun p r => getResolvedDirEnt heap root fuel p r)
        pr.1 pr.2 de red2

/-- The base-name step at a given re-resolution depth (the form the
lemmas below work with). -/
def resolveBase (heap : List (Nat × HNode)) (root : Nat) (fuel : Nat)
    (dir base : List Char) (de red : Nat) : Option (Except Err Nat × Nat) :=
  resolveBaseWith heap (fun p r => getResolvedDirEnt heap root fuel p r) dir base de red

/-- `FS.getDirEnt` (src/unnamed/part_016 lines 42-53): resolve
`Join("/", path)` with a fresh `maxRedirects` budget and require the
result to be a dnode, else `Invalid`. -/
def getDirEnt (heap : List (Nat × HNode)) (root : Nat) (fuel : Nat) (path : List Char) :
    Option (Except Err Nat) :=
  match getResolvedDirEnt heap root fuel (joinPath [['/'], path]) maxRedirects with
  | none => none
  | some (.error e, _) => some (.error e)
  | some (.ok id, _) =>
    match hfind heap id with
    | some (.dnode ..) => some (.ok id)
    | _ => some (.error .invalid)

/-- The caller policy of a with-parent resolution (src/unnamed/part_016
lines 135-141). -/
inductive ExistsPolicy where
  | mustNotExist
  | mustExist
  | doesntMatter
deriving DecidableEq

/-- `FS.getEntryWithParent` (src/unnamed/part_016 lines 143-164): split
the path, fail `Invalid` on an empty terminal, resolve the parent to a
dnode, look the terminal up and apply the policy: `mustExist` + absent
gives `NotExist`, `mustNotExist` + present gives `Exist`, otherwise the
parent id and the entry (when present) are returned. -/
def getEntryWithParent (heap : List (Nat × HNode)) (root : Nat) (fuel : Nat)
    (path : List Char) (ex : ExistsPolicy) :
    Option (Except Err (Nat × Option (List Char × Nat))) :=
  let pr := splitPath path
  if pr.2 = [] then some (.error .invalid)
  else
    match getDirEnt heap root fuel pr.1 with
    | none => none
    | some (.error e) => some (.error e)
    | some (.ok d) =>
      match hGetEntry heap d pr.2 with
      | .error e =>
        if e = .notExist ∧ ex ≠ .mustExist then some (.ok (d, none))
        else some (.error e)
      | .ok c =>
        if ex = .mustNotExist then some (.error .exist) else some (.ok (d, some c))

/-- `FS.mkdir` (src/memfs_rw.go lines 103-130): with-parent resolution
under `mustNotExist`, then insertion of a fresh mutable dnode named
`Base(path)` with mode `ModeDir | perm` and modtime `now` (the
`time.Now()` of the call); every error is wrapped `{op, opath}`. -/
def mkdirF (fs : FSH) (fuel : Nat) (op : String) (opath path : List Char) (perm now : Nat) :
    Option (Except Err Unit × FSH) :=
  match getEntryWithParent fs.heap fs.root fuel path .mustNotExist with
  | none => none
  | some (.error e) => some (.error (.pathError op (String.mk opath) e), fs)
  | some (.ok (d, _)) =>
    match hSetEntry fs.heap d (basePath path, fs.nextId) now with
    | .error e => some (.error (.pathError op (String.mk opath) e), fs)
    | .ok heap2 =>
      some (.ok (), FSH.mk fs.root
        (heap2 ++ [(fs.nextId, .dnode [] now (fsModeDir ||| perm))]) (fs.nextId + 1))

/-- Go `errors.Is(err, fs.ErrExist)`: unwrap `PathError` layers and
compare with the sentinel. -/
def errIsExist : Err → Bool
  | .exist => true
  | .pathError _ _ e => errIsExist e
  | _ => false

/-- The separator scan of `FS.MkdirAll` (src/memfs_rw.go lines 136-156):
starting at offset `last` into the cleaned path `cpath`, find the next
separator; skip it when leading; otherwise attempt `mkdir` on the proper
prefix before it, ignoring `Exist` and surfacing other errors; when no
separator is left, `mkdir` the whole `cpath`, surfacing every error. The
extra `k` argument is fuel for definability only: every iteration
advances `last`, so `cpath.length + 1` steps always suffice. -/
def mkdirAllLoop (fuel : Nat) (path cpath : List Char) (perm now : Nat) :
    Nat → FSH → Nat → Option (Except Err Unit × FSH)
  | 0, _, _ => none
  | k + 1, fs, last =>
    match charIndex (cpath.drop last) '/' with
    | none => mkdirF fs fuel "mkdirall" path cpath perm now
    | some pos =>
      if pos = 0 then mkdirAllLoop fuel path cpath perm now k fs (last + 1)
      else
        match mkdirF fs fuel "mkdirall" path (cpath.take (last + pos)) perm now with
        | none => none
        | some (.error e, fs1) =>
          if errIsExist e then mkdirAllLoop fuel path cpath perm now k fs1 (last + pos)
          else some (.error e, fs1)
        | some (.ok _, fs1) => mkdirAllLoop fuel path cpath perm now k fs1 (last + pos)

/-- `FS.MkdirAll` (src/memfs_rw.go lines 132-157): run the separator scan
over `cpath = Join("/", path)` from offset 0. -/
def mkdirAll (fs : FSH) (fuel : Nat) (path : List Char) (perm now : Nat) :
    Option (Except Err Unit × FSH) :=
  mkdirAllLoop fuel path (joinPath [['/'], path]) perm now
    ((joinPath [['/'], path]).length + 1) fs 0

/-- `FS.Rename` (src/memfs_rw.go lines 307-327): with-parent(old,
mustExist), with-parent(new, mustNotExist), require `canWrite` on the new
parent, remove the old name from its parent, then append the entry to the
new parent under `Base(newPath)`; every error is wrapped
`{"rename", path}` with the path the failing side used (the new path once
the old side has resolved). A setEntry failure after the removal leaves
the removal in place, as in the source. -/
def rename (fs : FSH) (fuel : Nat) (oldPath newPath : List Char) (now : Nat) :
    Option (Except Err Unit × FSH) :=
  match getEntryWithParent fs.heap fs.root fuel oldPath .mustExist with
  | none => none
  | some (.error e) => some (.error (.pathError "rename" (String.mk oldPath) e), fs)
  | some (.ok (od, oldFile?)) =>
    match oldFile? with
    | none => none
    | some oldFile =>
      match getEntryWithParent fs.heap fs.root fuel newPath .mustNotExist with
      | none => none
      | some (.error e) => some (.error (.pathError "rename" (String.mk newPath) e), fs)
      | some (.ok (nd, _)) =>
        if hMode fs.heap nd &&& canWrite = 0 then
          some (.error (.pathError "rename" (String.mk newPath) .permission), fs)
        else
          match hRemoveEntry fs.heap od oldFile.1 now with
          | .error e => some (.error (.pathError "rename" (String.mk newPath) e), fs)
          | .ok heap1 =>
            match hSetEntry heap1 nd (basePath newPath, oldFile.2) now with
            | .error e => some (.error (.pathError "rename" (String.mk newPath) e),
                { fs with heap := heap1 })
            | .ok heap2 => some (.ok (), { fs with heap := heap2 })

/-- Every dnode's entry names are pairwise distinct (the directory
invariant the spec states). -/
def heapNodup (h : List (Nat × HNode)) : Prop :=
  ∀ id es mt m, hfind h id = some (.dnode es mt m) → (es.map Prod.fst).Nodup

/-- The state after `MkdirAll("/a", 0o755)` on a fresh FS at time 1: the
root gains entry `a -> 1` and node 1 is the new directory. -/
def fsAfterA : FSH :=
  FSH.mk 0 [(0, .dnode [(['a'], 1)] 1 (fsModeDir ||| 0o777)),
    (1, .dnode [] 1 (fsModeDir ||| 0o755))] 2

/-- A concrete FS for exercising `Rename`: the root holds file `a`
(node 1) and directory `b` (node 2). -/
def fsC5 : FSH :=
  FSH.mk 0 [(0, .dnode [(['a'], 1), (['b'], 2)] 0 (fsModeDir ||| 0o777)),
    (1, .inode 0 ['x'] 0o644),
    (2, .dnode [] 0 (fsModeDir ||| 0o755))] 3

/-- `fsC5.heap` after removing `a` from the root at time 5. -/
def heapC5mid : List (Nat × HNode) :=
  [(0, .dnode [(['b'], 2)] 5 (fsModeDir ||| 0o777)),
   (1, .inode 0 ['x'] 0o644),
   (2, .dnode [] 0 (fsModeDir ||| 0o755))]

/-- `heapC5mid` after appending `c -> 1` to directory 2 at time 5. -/
def heapC5out : List (Nat × HNode) :=
  [(0, .dnode [(['b'], 2)] 5 (fsModeDir ||| 0o777)),
   (1, .inode 0 ['x'] 0o644),
   (2, .dnode [(['c'], 1)] 5 (fsModeDir ||| 0o755))]

/-! ## Theorems -/

theorem charIndex_lt_length (l : List Char) (c : Char) :
    ∀ i, charIndex l c = some i → i < l.length := by
  induction l with
  | nil => intro i h; simp [charIndex] at h
  | cons a rest ih =>
    intro i h
    unfold charIndex at h
    by_cases ha : a = c
    · rw [if_pos ha] at h
      cases h
      simp
    · rw [if_neg ha] at h
      cases hh : charIndex rest c with
      | none => rw [hh] at h; simp at h
      | some j =>
        rw [hh] at h
        simp at h
        have := ih j hh
        simp
        omega

theorem splitOffNamePart_path (r : Resolver) (hp : r.path ≠ []) :
    (splitOffNamePart r).2.path.length < r.path.length := by
  have hpos : 0 < r.path.length := List.length_pos.mpr hp
  unfold splitOffNamePart
  cases charIndex r.path '/' with
  | none => simpa using hpos
  | some i =>
    simp [List.length_drop]
    omega

theorem splitOffNamePart_red (r : Resolver) :
    (splitOffNamePart r).2.redirectsRemaining = r.redirectsRemaining := by
  unfold splitOffNamePart
  cases charIndex r.path '/' <;> rfl

theorem handleSymlink_ok_red (r : Resolver) (name : List Char) (sym : Node) (r2 : Resolver)
    (h : handleSymlink r name sym = .ok r2) :
    r2.redirectsRemaining = (r.redirectsRemaining + 255) % 256
    ∧ (r.redirectsRemaining + 255) % 256 ≠ 0 := by
  unfold handleSymlink at h
  by_cases hz : (r.redirectsRemaining + 255) % 256 = 0
  · simp [hz] at h
  · rw [if_neg hz] at h
    cases hns : nodeString sym with
    | error e => rw [hns] at h; simp at h
    | ok sp =>
      rw [hns] at h
      simp only [Except.ok.injEq] at h
      exact ⟨by rw [← h], hz⟩

theorem handleSymlink_at_one (r : Resolver) (name : List Char) (sym : Node)
    (h : r.redirectsRemaining = 1) : handleSymlink r name sym = .error .invalid := by
  unfold handleSymlink
  rw [h]
  simp

/-- Every loop iteration either stops, or strictly shortens the remaining
path while keeping the redirect budget, or consumes exactly one redirect
(the `uint8` decrement succeeding only because the counter was nonzero). -/
theorem resolveStep_cases (root curr : Node) (r : Resolver) (hp : r.path ≠ []) :
    (∃ res, resolveStep root curr r = .done res)
    ∨ (∃ c2 r2, resolveStep root curr r = .next c2 r2
        ∧ r2.redirectsRemaining = r.redirectsRemaining ∧ r2.path.length < r.path.length)
    ∨ (∃ r2, resolveStep root curr r = .next root r2
        ∧ r2.redirectsRemaining = (r.redirectsRemaining + 255) % 256
        ∧ (r.redirectsRemaining + 255) % 256 ≠ 0) := by
  unfold resolveStep
  rw [if_neg hp]
  by_cases hm : curr.modeOf &&& modeRead = 0
  · exact .inl ⟨_, by rw [if_pos hm]⟩
  rw [if_neg hm]
  rcases hsp : splitOffNamePart r with ⟨name, r1⟩
  have hr1red : r1.redirectsRemaining = r.redirectsRemaining := by
    have := splitOffNamePart_red r
    rw [hsp] at this
    exact this
  have hr1len : r1.path.length < r.path.length := by
    have := splitOffNamePart_path r hp
    rw [hsp] at this
    exact this
  dsimp only
  by_cases he : isEmptyName name
  · exact .inr (.inl ⟨curr, r1, by rw [if_pos he], hr1red, hr1len⟩)
  rw [if_neg he]
  cases hge : getEntry curr name with
  | error e => exact .inl ⟨_, rfl⟩
  | ok de =>
    rcases de with ⟨entName, ent⟩
    dsimp only
    by_cases hsym : ent.modeOf &&& fsModeSymlink = 0
    · exact .inr (.inl ⟨ent, r1, by rw [if_pos hsym], hr1red, hr1len⟩)
    rw [if_neg hsym]
    cases hhs : handleSymlink r1 entName ent with
    | error e => exact .inl ⟨_, rfl⟩
    | ok r2 =>
      have := handleSymlink_ok_red r1 entName ent r2 hhs
      rw [hr1red] at this
      exact .inr (.inr ⟨r2, rfl, this.1, this.2⟩)

/-- The loop of `resolver.resolve` terminates from every state whose
redirect budget is in `[1, 255]`: some finite fuel makes `resolveFuel`
return a result, for every tree and every path. -/
theorem resolveFuel_total (root : Node) :
    ∀ red plen (curr : Node) (r : Resolver), 1 ≤ red → red ≤ 255 →
      r.redirectsRemaining = red → r.path.length ≤ plen →
      ∃ n res, resolveFuel root n curr r = some res := by
  intro red
  induction red using Nat.strong_induction_on with
  | _ red ihred =>
    intro plen
    induction plen with
    | zero =>
      intro curr r h1 h255 hred hlen
      have hp : r.path = [] := List.length_eq_zero.mp (Nat.le_zero.mp hlen)
      exact ⟨1, .ok curr, by simp [resolveFuel, resolveStep, hp]⟩
    | succ plen ihplen =>
      intro curr r h1 h255 hred hlen
      by_cases hp : r.path = []
      · exact ⟨1, .ok curr, by simp [resolveFuel, resolveStep, hp]⟩
      · rcases resolveStep_cases root curr r hp
          with ⟨res, hstep⟩ | ⟨c2, r2, hstep, hr2red, hr2len⟩ | ⟨r2, hstep, hr2red, hnz⟩
        · exact ⟨1, res, by simp [resolveFuel, hstep]⟩
        · obtain ⟨n, res, hn⟩ := ihplen c2 r2 h1 h255 (hr2red.trans hred) (by omega)
          exact ⟨n + 1, res, by simp [resolveFuel, hstep, hn]⟩
        · rw [hred] at hr2red hnz
          obtain ⟨n, res, hn⟩ :=
            ihred (red - 1) (by omega) r2.path.length root r2 (by omega) (by omega)
              (by rw [hr2red]; omega) le_rfl
          exact ⟨n + 1, res, by simp [resolveFuel, hstep, hn]⟩

/-- C1: Path resolution always terminates for every filesystem tree and
every path: each symlink traversal consumes exactly one redirect from a
counter starting at 255 (`maxRedirects`; the `uint8` decrement hits zero
and fails `Invalid` rather than proceeding), and a resolution whose
symlink chain exceeds the limit — in particular a self-pointing symlink or
a two-cycle — returns the `Invalid` error instead of looping forever. -/
theorem c1_resolution_terminates :
    (∀ (root curr : Node) (r : Resolver),
        1 ≤ r.redirectsRemaining → r.redirectsRemaining ≤ 255 →
        ∃ n res, resolveFuel root n curr r = some res)
    ∧ (∀ (r : Resolver) (name : List Char) (sym : Node) (r2 : Resolver),
        1 ≤ r.redirectsRemaining → r.redirectsRemaining ≤ 255 →
        handleSymlink r name sym = .ok r2 →
        r2.redirectsRemaining = r.redirectsRemaining - 1)
    ∧ (∀ (r : Resolver) (name : List Char) (sym : Node),
        r.redirectsRemaining = 1 → handleSymlink r name sym = .error .invalid)
    ∧ getEntryWithoutCheck 600 selfLoopRoot ['a'] = some (.error .invalid)
    ∧ getEntryWithoutCheck 2000 twoCycleRoot ['a'] = some (.error .invalid) := by
  refine ⟨?_, ?_, ?_, ?_, ?_⟩
  · intro root curr r h1 h255
    exact resolveFuel_total root r.redirectsRemaining r.path.length curr r h1 h255 rfl le_rfl
  · intro r name sym r2 h1 h255 h
    have := (handleSymlink_ok_red r name sym r2 h).1
    rw [this]
    omega
  · intro r name sym h
    exact handleSymlink_at_one r name sym h
  · rfl
  · rfl

/-- Witness for C1 at a concrete input: the resolver state used by
`getEntryWithoutCheck` on the self-loop tree satisfies the hypotheses, and
the resolution of that state terminates. -/
theorem c1_resolution_terminates_witness :
    1 ≤ (Resolver.mk ['a'] ['a'] 0 maxRedirects).redirectsRemaining
    ∧ (Resolver.mk ['a'] ['a'] 0 maxRedirects).redirectsRemaining ≤ 255
    ∧ ∃ n res,
        resolveFuel selfLoopRoot n selfLoopRoot (Resolver.mk ['a'] ['a'] 0 maxRedirects)
          = some res :=
  ⟨by decide, by decide,
   c1_resolution_terminates.1 selfLoopRoot selfLoopRoot _ (by decide) (by decide)⟩

mutual

theorem sealNode_eq_plainImage : ∀ t : Node, allRW t = true → sealNode t = plainImage t
  | .inode _ mt d m, _ => rfl
  | .dnode rw es mt m, h => by
    unfold allRW at h
    rw [Bool.and_eq_true] at h
    unfold sealNode plainImage
    rw [if_pos h.1, sealEntries_eq_plainImageEntries es h.2]

theorem sealEntries_eq_plainImageEntries :
    ∀ es : List (List Char × Node), allRWEntries es = true → sealEntries es = plainImageEntries es
  | [], _ => rfl
  | (n, e) :: rest, h => by
    unfold allRWEntries at h
    rw [Bool.and_eq_true] at h
    unfold sealEntries plainImageEntries
    rw [sealNode_eq_plainImage e h.1, sealEntries_eq_plainImageEntries rest h.2]

end

theorem sealNode_modeOf (a : Node) : (sealNode a).modeOf = a.modeOf := by
  cases a with
  | inode rw mt d m => rfl
  | dnode rw es mt m =>
    unfold sealNode
    by_cases h : rw = true
    · rw [if_pos h]; rfl
    · rw [if_neg h]

theorem sealNode_modtimeOf (a : Node) : (sealNode a).modtimeOf = a.modtimeOf := by
  cases a with
  | inode rw mt d m => rfl
  | dnode rw es mt m =>
    unfold sealNode
    by_cases h : rw = true
    · rw [if_pos h]; rfl
    · rw [if_neg h]

theorem sealNode_dataOf (a : Node) : (sealNode a).dataOf = a.dataOf := by
  cases a with
  | inode rw mt d m => rfl
  | dnode rw es mt m =>
    unfold sealNode
    by_cases h : rw = true
    · rw [if_pos h]; rfl
    · rw [if_neg h]

theorem sealNode_nodeString (a : Node) : nodeString (sealNode a) = nodeString a := by
  cases a with
  | inode rw mt d m => rfl
  | dnode rw es mt m =>
    unfold sealNode
    by_cases h : rw = true
    · rw [if_pos h]; rfl
    · rw [if_neg h]

theorem sealRel_modeOf {a b : Node} (h : SealRel a b) : b.modeOf = a.modeOf := by
  rcases h with rfl | rfl
  · exact sealNode_modeOf a
  · rfl

theorem sealRel_modtimeOf {a b : Node} (h : SealRel a b) : b.modtimeOf = a.modtimeOf := by
  rcases h with rfl | rfl
  · exact sealNode_modtimeOf a
  · rfl

theorem sealRel_dataOf {a b : Node} (h : SealRel a b) : b.dataOf = a.dataOf := by
  rcases h with rfl | rfl
  · exact sealNode_dataOf a
  · rfl

theorem sealRel_nodeString {a b : Node} (h : SealRel a b) : nodeString b = nodeString a := by
  rcases h with rfl | rfl
  · exact sealNode_nodeString a
  · rfl

theorem findEntry_sealEntries (es : List (List Char × Node)) (name : List Char) :
    findEntry (sealEntries es) name = (findEntry es name).map (fun de => (de.1, sealNode de.2)) := by
  induction es with
  | nil => rfl
  | cons de rest ih =>
    rcases de with ⟨n, e⟩
    unfold sealEntries findEntry
    by_cases h : n = name
    · rw [if_pos h, if_pos h]; rfl
    · rw [if_neg h, if_neg h]; exact ih

theorem getEntry_rel {a b : Node} (hab : SealRel a b) (name : List Char) :
    (∀ e, getEntry a name = .error e → getEntry b name = .error e)
    ∧ (∀ nm c, getEntry a name = .ok (nm, c) →
        ∃ c2, getEntry b name = .ok (nm, c2) ∧ SealRel c c2) := by
  rcases hab with rfl | rfl
  · cases a with
    | inode rw mt d m =>
      exact ⟨fun e he => he, fun nm c h => by simp [getEntry] at h⟩
    | dnode rw es mt m =>
      by_cases hrw : rw = true
      · subst hrw
        unfold sealNode
        rw [if_pos rfl]
        simp only [getEntry]
        by_cases hm : m &&& modeRead = 0
        · rw [if_pos hm, if_pos hm]
          exact ⟨fun e he => he, fun nm c h => by simp at h⟩
        · rw [if_neg hm, if_neg hm, findEntry_sealEntries]
          cases hfe : findEntry es name with
          | none => exact ⟨fun e he => he, fun nm c h => by simp at h⟩
          | some de =>
            rcases de with ⟨dn, dc⟩
            dsimp only
            constructor
            · intro e he
              exact Except.noConfusion he
            · intro nm c h
              have h2 : dn = nm ∧ dc = c := by simpa using h
              obtain ⟨rfl, rfl⟩ := h2
              exact ⟨sealNode dc, rfl, .inl rfl⟩
      · unfold sealNode
        rw [if_neg hrw]
        exact ⟨fun e he => he, fun nm c h => ⟨c, h, .inr rfl⟩⟩
  · exact ⟨fun e he => he, fun nm c h => ⟨c, h, .inr rfl⟩⟩

theorem handleSymlink_congr (r : Resolver) (name : List Char) {a b : Node}
    (h : nodeString b = nodeString a) :
    handleSymlink r name b = handleSymlink r name a := by
  unfold handleSymlink
  rw [h]

/-- One resolver-loop iteration on the original tree and on the sealed
tree: both take the same branch, produce identical errors and resolver
states, and keep the current nodes related. -/
theorem resolveStep_rel (root1 root2 curr1 curr2 : Node) (r : Resolver)
    (hroot : SealRel root1 root2) (hcurr : SealRel curr1 curr2) :
    (∃ n1 n2, resolveStep root1 curr1 r = .done (.ok n1)
        ∧ resolveStep root2 curr2 r = .done (.ok n2) ∧ SealRel n1 n2)
    ∨ (∃ e, resolveStep root1 curr1 r = .done (.error e)
        ∧ resolveStep root2 curr2 r = .done (.error e))
    ∨ (∃ c1 c2 r2, resolveStep root1 curr1 r = .next c1 r2
        ∧ resolveStep root2 curr2 r = .next c2 r2 ∧ SealRel c1 c2) := by
  unfold resolveStep
  by_cases hp : r.path = []
  · rw [if_pos hp, if_pos hp]
    exact .inl ⟨curr1, curr2, rfl, rfl, hcurr⟩
  rw [if_neg hp, if_neg hp, sealRel_modeOf hcurr]
  by_cases hm : curr1.modeOf &&& modeRead = 0
  · rw [if_pos hm, if_pos hm]
    exact .inr (.inl ⟨.permission, rfl, rfl⟩)
  rw [if_neg hm, if_neg hm]
  rcases hsp : splitOffNamePart r with ⟨name, r1⟩
  dsimp only
  by_cases he : isEmptyName name
  · rw [if_pos he, if_pos he]
    exact .inr (.inr ⟨curr1, curr2, r1, rfl, rfl, hcurr⟩)
  rw [if_neg he, if_neg he]
  obtain ⟨herr, hok⟩ := getEntry_rel hcurr name
  cases hge : getEntry curr1 name with
  | error e =>
    rw [herr e hge]
    exact .inr (.inl ⟨e, rfl, rfl⟩)
  | ok de =>
    rcases de with ⟨nm, c⟩
    obtain ⟨c2, hge2, hc⟩ := hok nm c hge
    rw [hge2]
    dsimp only
    rw [sealRel_modeOf hc]
    by_cases hsym : c.modeOf &&& fsModeSymlink = 0
    · rw [if_pos hsym, if_pos hsym]
      exact .inr (.inr ⟨c, c2, r1, rfl, rfl, hc⟩)
    · rw [if_neg hsym, if_neg hsym, handleSymlink_congr r1 nm (sealRel_nodeString hc)]
      cases hhs : handleSymlink r1 nm c with
      | error e => exact .inr (.inl ⟨e, rfl, rfl⟩)
      | ok r2 => exact .inr (.inr ⟨root1, root2, r2, rfl, rfl, hroot⟩)

/-- The resolver loop simulated on the sealed tree: with the same fuel it
runs out together, fails with the same error, or succeeds with related
result nodes. -/
theorem resolveFuel_rel :
    ∀ (n : Nat) (root1 root2 curr1 curr2 : Node) (r : Resolver),
      SealRel root1 root2 → SealRel curr1 curr2 →
      (resolveFuel root1 n curr1 r = none ∧ resolveFuel root2 n curr2 r = none)
      ∨ (∃ e, resolveFuel root1 n curr1 r = some (.error e)
          ∧ resolveFuel root2 n curr2 r = some (.error e))
      ∨ (∃ n1 n2, resolveFuel root1 n curr1 r = some (.ok n1)
          ∧ resolveFuel root2 n curr2 r = some (.ok n2) ∧ SealRel n1 n2) := by
  intro n
  induction n with
  | zero => exact fun _ _ _ _ _ _ _ => .inl ⟨rfl, rfl⟩
  | succ n ih =>
    intro root1 root2 curr1 curr2 r hroot hcurr
    rcases resolveStep_rel root1 root2 curr1 curr2 r hroot hcurr
      with ⟨n1, n2, h1, h2, hrel⟩ | ⟨e, h1, h2⟩ | ⟨c1, c2, r2, h1, h2, hrel⟩
    · exact .inr (.inr ⟨n1, n2, by simp [resolveFuel, h1], by simp [resolveFuel, h2], hrel⟩)
    · exact .inr (.inl ⟨e, by simp [resolveFuel, h1], by simp [resolveFuel, h2]⟩)
    · rcases ih root1 root2 c1 c2 r2 hroot hrel
        with ⟨h1r, h2r⟩ | ⟨e, h1r, h2r⟩ | ⟨n1, n2, h1r, h2r, hrelr⟩
      · exact .inl ⟨by simp [resolveFuel, h1, h1r], by simp [resolveFuel, h2, h2r]⟩
      · exact .inr (.inl ⟨e, by simp [resolveFuel, h1, h1r], by simp [resolveFuel, h2, h2r]⟩)
      · exact .inr (.inr ⟨n1, n2, by simp [resolveFuel, h1, h1r],
          by simp [resolveFuel, h2, h2r], hrelr⟩)

/-- C2: Seal preserves observable reads — for every path and any fuel, the
payload, mode and modtime observed through resolution on the sealed tree
equal those observed on the mutable tree (including which error, if any,
the read reports) — and on an all-mutable tree (the shape the read-write
facade builds) the sealed tree is exactly the plain-node image of the
mutable tree. -/
theorem c2_seal_preserves_reads :
    (∀ (t : Node) (p : List Char) (fuel : Nat), observe fuel (sealNode t) p = observe fuel t p)
    ∧ (∀ t : Node, allRW t = true → sealNode t = plainImage t) := by
  refine ⟨?_, sealNode_eq_plainImage⟩
  intro t p fuel
  unfold observe getEntryWithoutCheck
  rcases resolveFuel_rel fuel t (sealNode t) t (sealNode t)
      { fullPath := p, path := p, cutAt := 0, redirectsRemaining := maxRedirects }
      (.inl rfl) (.inl rfl)
    with ⟨h1, h2⟩ | ⟨e, h1, h2⟩ | ⟨n1, n2, h1, h2, hrel⟩
  · rw [h1, h2]
  · rw [h1, h2]
  · rw [h1, h2]
    simp only [Option.map_some', Except.map]
    rw [sealRel_dataOf hrel, sealRel_modeOf hrel, sealRel_modtimeOf hrel]

/-- Witness for C2's second part at a concrete input: a two-level
all-mutable tree whose seal is its plain-node image, and whose reads are
unchanged by sealing. -/
theorem c2_seal_preserves_reads_witness :
    allRW (Node.dnode true [(['d'],
        Node.dnode true [(['f'], Node.inode true 7 ['h', 'i'] 0o644)] 3 (fsModeDir ||| 0o755))]
        2 (fsModeDir ||| 0o755)) = true
    ∧ sealNode (Node.dnode true [(['d'],
        Node.dnode true [(['f'], Node.inode true 7 ['h', 'i'] 0o644)] 3 (fsModeDir ||| 0o755))]
        2 (fsModeDir ||| 0o755))
      = plainImage (Node.dnode true [(['d'],
        Node.dnode true [(['f'], Node.inode true 7 ['h', 'i'] 0o644)] 3 (fsModeDir ||| 0o755))]
        2 (fsModeDir ||| 0o755)) :=
  ⟨rfl, c2_seal_preserves_reads.2 _ rfl⟩

/-- Counterexample to C3 as stated: after `ReadDir(1)` has advanced the
cursor to 1, `ReadDir(-1)` returns ALL entries (names `a`, `b`), not the
remaining entries (name `b` alone), though it indeed leaves the cursor
alone. -/
theorem c3_readdir_counterexample :
    (readDir dirAB 1).2.pos = 1
    ∧ (readDir (readDir dirAB 1).2 (-1)).1.map (List.map Prod.fst) = .ok [['a'], ['b']]
    ∧ (readDir (readDir dirAB 1).2 (-1)).2.pos = 1
    ∧ (dirAB.entries.drop (readDir dirAB 1).2.pos).map Prod.fst = [['b']]
    ∧ ([['a'], ['b']] : List (List Char)) ≠ [['b']] :=
  ⟨rfl, rfl, rfl, rfl, by decide⟩

/-- C3 (amended): for a readable open directory handle, `ReadDir(n)` with `n ≤ 0` returns all of the directory's entries —
from the beginning, regardless of the cursor — and does not advance the
cursor `pos`; with `n > 0` it returns up to `n` entries starting at `pos`
and advances `pos` by the number returned; when `pos` already equals the
entry count and `n > 0` it returns end-of-stream (`io.EOF`). -/
theorem c3_readdir_amended (d : Directory) (hr : d.mode &&& modeRead ≠ 0) :
    (∀ n : Int, n ≤ 0 → readDir d n = (.ok d.entries, d))
    ∧ (∀ n : Int, 0 < n → d.pos < d.entries.length →
        readDir d n = (.ok ((d.entries.drop d.pos).take n.toNat),
          { d with pos := d.pos + ((d.entries.drop d.pos).take n.toNat).length }))
    ∧ (∀ n : Int, 0 < n → d.pos = d.entries.length → readDir d n = (.error .eof, d)) := by
  refine ⟨?_, ?_, ?_⟩
  · intro n hn
    unfold readDir getEntries
    rw [if_pos hn, if_neg hr]
  · intro n hn hlt
    unfold readDir
    rw [if_neg (by omega), if_neg hr]
    have hlen : ((d.entries.drop d.pos).take n.toNat).length
        = min n.toNat (d.entries.length - d.pos) := by
      simp [List.length_take, List.length_drop]
    have hmin : ¬ min n.toNat (d.entries.length - d.pos) = 0 := by
      have : 1 ≤ n.toNat := by omega
      simp only [Nat.min_eq_zero_iff]
      omega
    rw [if_neg hmin]
    have htake : (d.entries.drop d.pos).take (min n.toNat (d.entries.length - d.pos))
        = (d.entries.drop d.pos).take n.toNat := by
      rcases Nat.le_total n.toNat (d.entries.length - d.pos) with h | h
      · rw [Nat.min_eq_left h]
      · rw [Nat.min_eq_right h]
        rw [List.take_of_length_le (by simp [List.length_drop]),
          List.take_of_length_le (by simp [List.length_drop]; omega)]
    rw [htake, hlen]
  · intro n hn heq
    unfold readDir
    rw [if_neg (by omega), if_neg hr]
    have : min n.toNat (d.entries.length - d.pos) = 0 := by
      rw [heq]
      simp
    rw [if_pos this]

/-- Witness for C3's amended theorem at a concrete directory handle. -/
theorem c3_readdir_amended_witness :
    dirAB.mode &&& modeRead ≠ 0
    ∧ readDir dirAB (-1) = (.ok dirAB.entries, dirAB) :=
  ⟨by decide, (c3_readdir_amended dirAB (by decide)).1 (-1) (by decide)⟩

/-- Counterexample to C6 as stated: a buffer of length 1 whose capacity is
2 is asked to grow to length 2. The needed length fits the capacity, yet
the code does not reslice — it allocates a fresh doubled array (the
strict `size < cap` test excludes equality). -/
theorem c6_grow_counterexample :
    2 ≤ (Buffer.mk [7, 9] 1).arr.length
    ∧ grow (Buffer.mk [7, 9] 1) 2 = Buffer.mk [7, 0, 0, 0] 2
    ∧ ¬ (grow (Buffer.mk [7, 9] 1) 2).arr = [7, 9] := by decide

/-- C6 (amended): for every write that needs the file to reach length
`size` exceeding the current length (`fileRW.grow`, called by every write
path with the write's end offset): if `size` is strictly below the current
capacity the buffer is merely resliced to that length; otherwise (equal
capacity included) a new zeroed buffer of length `size` is allocated —
with capacity `size * 2` while the current length is below 512, and
`size + size/4` beyond — and the prior bytes are copied into it. -/
theorem c6_grow_amended (b : Buffer) (size : Nat) (hb : b.len ≤ b.arr.length) :
    (size ≤ b.len → grow b size = b)
    ∧ (b.len < size → size < b.arr.length → grow b size = { b with len := size })
    ∧ (b.len < size → b.arr.length ≤ size →
        grow b size = Buffer.mk (b.arr.take b.len ++
            List.replicate ((if b.len < 512 then size * 2 else size + size / 4) - b.len) 0) size
        ∧ (grow b size).arr.length = (if b.len < 512 then size * 2 else size + size / 4)) := by
  refine ⟨?_, ?_, ?_⟩
  · intro h
    unfold grow
    rw [if_neg (by omega)]
  · intro h1 h2
    unfold grow
    rw [if_pos h1, if_pos h2]
  · intro h1 h2
    have hgrow : grow b size = Buffer.mk (b.arr.take b.len ++
        List.replicate ((if b.len < 512 then size * 2 else size + size / 4) - b.len) 0) size := by
      unfold grow
      rw [if_pos h1, if_neg (by omega)]
    refine ⟨hgrow, ?_⟩
    rw [hgrow]
    simp only [List.length_append, List.length_take, List.length_replicate]
    have : min b.len b.arr.length = b.len := Nat.min_eq_left hb
    rw [this]
    split_ifs <;> omega

/-- Witness for C6's amended theorem at a concrete buffer. -/
theorem c6_grow_amended_witness :
    (Buffer.mk [1, 2, 3, 4] 2).len ≤ (Buffer.mk [1, 2, 3, 4] 2).arr.length
    ∧ grow (Buffer.mk [1, 2, 3, 4] 2) 3 = Buffer.mk [1, 2, 3, 4] 3 :=
  ⟨by decide, (c6_grow_amended (Buffer.mk [1, 2, 3, 4] 2) 3 (by decide)).2.1
    (by decide) (by decide)⟩

/-- C7: for a handle with capabilities Read and Seek positioned before the
end of the data, `ReadByte` then `UnreadByte` restores the state (cursor
back, unread marker cleared), a second `ReadByte` returns the same byte,
two consecutive `UnreadByte` calls fail `Invalid` on the second (the
marker `lastRead` was cleared by the first), and an `UnreadByte` after a
non-read operation (a `Seek`) fails `Invalid` as well. -/
theorem c7_readByte_unreadByte (f : File) (h1 : f.opMode = opRead ||| opSeek)
    (h2 : 0 ≤ f.pos) (h3 : f.pos < (f.data.length : Int)) :
    (readByte f).1 = .ok (f.data.getD f.pos.toNat 0)
    ∧ (unreadByte (readByte f).2).1 = .ok ()
    ∧ (unreadByte (readByte f).2).2 = { f with lastRead := 0 }
    ∧ (readByte (unreadByte (readByte f).2).2).1 = (readByte f).1
    ∧ (unreadByte (unreadByte (readByte f).2).2).1
        = .error (.pathError "unreadbyte" f.name .invalid)
    ∧ (unreadByte (seek (readByte f).2 0 1).2).1
        = .error (.pathError "unreadbyte" f.name .invalid) := by
  have hv1 : validTo f "readbyte" opRead true = none := by
    unfold validTo
    rw [if_neg (by rw [h1]; decide), if_neg (by rw [h1]; decide), if_neg (by simp; omega)]
  have hrb : readByte f
      = (.ok (f.data.getD f.pos.toNat 0), { f with pos := f.pos + 1, lastRead := 1 }) := by
    unfold readByte
    rw [hv1]
  have hv2 : validTo { f with pos := f.pos + 1, lastRead := 1 }
      "unreadbyte" (opRead ||| opSeek) false = none := by
    unfold validTo
    rw [if_neg (by simp; rw [h1]; decide), if_neg (by simp; rw [h1]; decide), if_neg (by simp)]
  have hub : unreadByte { f with pos := f.pos + 1, lastRead := 1 } = (.ok (), { f with lastRead := 0 }) := by
    unfold unreadByte
    rw [hv2]
    simp only [if_neg (by simp : ¬ (1 : Nat) ≠ 1)]
    have : f.pos + 1 - 1 = f.pos := by ring
    simp [this]
  have hv3 : validTo { f with lastRead := 0 } "readbyte" opRead true = none := by
    unfold validTo
    rw [if_neg (by simp; rw [h1]; decide), if_neg (by simp; rw [h1]; decide), if_neg (by simp; omega)]
  have hv4 : validTo { f with lastRead := 0 } "unreadbyte" (opRead ||| opSeek) false = none := by
    unfold validTo
    rw [if_neg (by simp; rw [h1]; decide), if_neg (by simp; rw [h1]; decide), if_neg (by simp)]
  have hrb2 : (readByte f).2 = { f with pos := f.pos + 1, lastRead := 1 } := by rw [hrb]
  have hub2 : (unreadByte { f with pos := f.pos + 1, lastRead := 1 }).2
      = { f with lastRead := 0 } := by rw [hub]
  refine ⟨by rw [hrb], by rw [hrb2, hub], by rw [hrb2, hub2], ?_, ?_, ?_⟩
  · rw [hrb2, hub2, hrb]
    unfold readByte
    rw [hv3]
  · rw [hrb2, hub2]
    unfold unreadByte
    rw [hv4]
    simp
  · rw [hrb2]
    have hvs : validTo { f with pos := f.pos + 1, lastRead := 1 } "seek" opSeek false = none := by
      unfold validTo
      rw [if_neg (by simp; rw [h1]; decide), if_neg (by simp; rw [h1]; decide), if_neg (by simp)]
    have hvu : ∀ p : Int, validTo { f with pos := p, lastRead := 0 }
        "unreadbyte" (opRead ||| opSeek) false = none := by
      intro p
      unfold validTo
      rw [if_neg (by simp; rw [h1]; decide), if_neg (by simp; rw [h1]; decide), if_neg (by simp)]
    unfold seek
    rw [hvs]
    dsimp only
    norm_num
    by_cases hneg : wrap64 (f.pos + 1) < 0
    · rw [if_pos hneg]
      dsimp only
      unfold unreadByte
      rw [hvu 0]
      simp
    · rw [if_neg hneg]
      dsimp only
      unfold unreadByte
      rw [hvu (wrap64 (f.pos + 1))]
      simp

/-- Witness for C7 at a concrete handle over bytes 65, 66. -/
theorem c7_readByte_unreadByte_witness :
    cf.opMode = opRead ||| opSeek ∧ 0 ≤ cf.pos ∧ cf.pos < (cf.data.length : Int)
    ∧ (readByte cf).1 = .ok 65
    ∧ (readByte (unreadByte (readByte cf).2).2).1 = (readByte cf).1
    ∧ (unreadByte (unreadByte (readByte cf).2).2).1
        = .error (.pathError "unreadbyte" cf.name .invalid) := by
  refine ⟨by decide, by decide, by decide, by rfl, ?_, ?_⟩
  · exact (c7_readByte_unreadByte cf (by decide) (by decide) (by decide)).2.2.2.1
  · exact (c7_readByte_unreadByte cf (by decide) (by decide) (by decide)).2.2.2.2.1

/-- C8: for an open handle with the Seek capability: an unknown whence
fails `Invalid` (state untouched); a seek whose computed position — the
wrapped int64 arithmetic of the chosen base and offset — is negative
clamps `pos` to 0 and returns `Invalid`; otherwise the seek returns the
computed position (seeking past the end included) and stores it; every
seek that reaches the whence switch with a known whence clears the unread
marker `lastRead`. -/
theorem c8_seek (f : File) (hopen : f.opMode ≠ opClose) (hcap : f.opMode &&& opSeek = opSeek) :
    (∀ offset whence : Int, ¬(whence = 0 ∨ whence = 1 ∨ whence = 2) →
        seek f offset whence = ((0, some (.pathError "seek" f.name .invalid)), f))
    ∧ (∀ offset : Int, offset < 0 →
        seek f offset 0 = ((0, some (.pathError "seek" f.name .invalid)),
          { f with pos := 0, lastRead := 0 }))
    ∧ (∀ offset : Int, 0 ≤ offset →
        seek f offset 0 = ((offset, none), { f with pos := offset, lastRead := 0 }))
    ∧ (∀ offset : Int, wrap64 (f.pos + offset) < 0 →
        seek f offset 1 = ((0, some (.pathError "seek" f.name .invalid)),
          { f with pos := 0, lastRead := 0 }))
    ∧ (∀ offset : Int, 0 ≤ wrap64 (f.pos + offset) →
        seek f offset 1 = ((wrap64 (f.pos + offset), none),
          { f with pos := wrap64 (f.pos + offset), lastRead := 0 }))
    ∧ (∀ offset : Int, wrap64 ((f.data.length : Int) + offset) < 0 →
        seek f offset 2 = ((0, some (.pathError "seek" f.name .invalid)),
          { f with pos := 0, lastRead := 0 }))
    ∧ (∀ offset : Int, 0 ≤ wrap64 ((f.data.length : Int) + offset) →
        seek f offset 2 = ((wrap64 ((f.data.length : Int) + offset), none),
          { f with pos := wrap64 ((f.data.length : Int) + offset), lastRead := 0 })) := by
  have hv : validTo f "seek" opSeek false = none := by
    unfold validTo
    rw [if_neg hopen, if_neg (by rw [hcap]; simp), if_neg (by simp)]
  refine ⟨?_, ?_, ?_, ?_, ?_, ?_, ?_⟩
  · intro offset whence hw
    push_neg at hw
    unfold seek
    rw [hv]
    dsimp only
    rw [if_neg hw.1, if_neg hw.2.1, if_neg hw.2.2]
  · intro offset hneg
    unfold seek
    rw [hv]
    dsimp only
    norm_num
    exact fun h => absurd h (not_le.mpr hneg)
  · intro offset hpos
    unfold seek
    rw [hv]
    dsimp only
    norm_num
    exact fun h => absurd h (not_lt.mpr hpos)
  · intro offset hneg
    unfold seek
    rw [hv]
    dsimp only
    norm_num
    exact fun h => absurd h (not_le.mpr hneg)
  · intro offset hpos
    unfold seek
    rw [hv]
    dsimp only
    norm_num
    exact fun h => absurd h (not_lt.mpr hpos)
  · intro offset hneg
    unfold seek
    rw [hv]
    dsimp only
    norm_num
    exact fun h => absurd h (not_le.mpr hneg)
  · intro offset hpos
    unfold seek
    rw [hv]
    dsimp only
    norm_num
    exact fun h => absurd h (not_lt.mpr hpos)

/-- Witness for C8: seeking past the end is allowed and returns the
computed position; seeking to a negative position clamps to 0 and fails
`Invalid`. -/
theorem c8_seek_witness :
    cf.opMode ≠ opClose ∧ cf.opMode &&& opSeek = opSeek
    ∧ seek cf 5 0 = ((5, none), { cf with pos := 5, lastRead := 0 })
    ∧ seek cf (-1) 0 = ((0, some (.pathError "seek" cf.name .invalid)),
        { cf with pos := 0, lastRead := 0 }) :=
  ⟨by decide, by decide, (c8_seek cf (by decide) (by decide)).2.2.1 5 (by decide),
   (c8_seek cf (by decide) (by decide)).2.1 (-1) (by decide)⟩

/-- C9: `ReadAt` changes no handle state at all — for every handle, length
and offset, the post-state is the pre-state (cursor, unread marker and
payload included), so an `UnreadByte` permitted before is permitted
after. -/
theorem c9_readAt_frame (f : File) (k : Nat) (off : Int) :
    (readAt f k off).2 = f
    ∧ unreadByte (readAt f k off).2 = unreadByte f
    ∧ (readAt f k off).2.pos = f.pos
    ∧ (readAt f k off).2.lastRead = f.lastRead
    ∧ (readAt f k off).2.data = f.data := by
  have h : (readAt f k off).2 = f := by
    unfold readAt
    cases validTo f "readat" (opRead ||| opSeek) false with
    | some e => rfl
    | none =>
      dsimp only
      split_ifs <;> rfl
  exact ⟨h, by rw [h], by rw [h], by rw [h], by rw [h]⟩

/-- C10: after any `Close` — including a repeated one — the handle state
is closed with `pos = 0` and `lastRead = 0`; the call reports `Closed`
exactly when the handle was already closed, and a second `Close` reports
`Closed` while changing nothing further. -/
theorem c10_close_idempotent (f : File) :
    (close f).2 = { f with opMode := opClose, pos := 0, lastRead := 0 }
    ∧ (close f).1
        = (if f.opMode = opClose then some (.pathError "close" f.name .closed) else none)
    ∧ close ((close f).2) = (some (.pathError "close" f.name .closed), (close f).2) := by
  refine ⟨rfl, ?_, ?_⟩
  · unfold close validTo
    by_cases h : f.opMode = opClose
    · rw [if_pos h, if_pos h]
    · rw [if_neg h, if_neg h, if_neg (by simp [opClose]), if_neg (by simp)]
  · unfold close validTo
    rw [if_pos rfl]

/-! ### Heap lemmas for the mutating facade -/

theorem hfind_append (a b : List (Nat × HNode)) (id : Nat) :
    hfind (a ++ b) id = match hfind a id with | some n => some n | none => hfind b id := by
  induction a with
  | nil => rfl
  | cons p rest ih =>
    rcases p with ⟨i, n⟩
    rw [List.cons_append]
    show (if i = id then some n else hfind (rest ++ b) id)
      = match (if i = id then some n else hfind rest id) with
        | some n => some n
        | none => hfind b id
    by_cases h : i = id
    · rw [if_pos h, if_pos h]
    · rw [if_neg h, if_neg h]
      exact ih

theorem hfind_hset_other (h : List (Nat × HNode)) (d : Nat) (v : HNode) (id : Nat)
    (hne : id ≠ d) : hfind (hset h d v) id = hfind h id := by
  induction h with
  | nil => rfl
  | cons p rest ih =>
    rcases p with ⟨i, n⟩
    unfold hset
    by_cases hi : i = d
    · rw [if_pos hi]
      unfold hfind
      rw [if_neg (by omega), if_neg (by omega)]
    · rw [if_neg hi]
      unfold hfind
      by_cases hii : i = id
      · rw [if_pos hii, if_pos hii]
      · rw [if_neg hii, if_neg hii]
        exact ih

theorem hfind_hset_self (h : List (Nat × HNode)) (d : Nat) (v : HNode) (n0 : HNode)
    (hb : hfind h d = some n0) : hfind (hset h d v) d = some v := by
  induction h with
  | nil => simp [hfind] at hb
  | cons p rest ih =>
    rcases p with ⟨i, n⟩
    unfold hfind at hb
    unfold hset
    by_cases hi : i = d
    · rw [if_pos hi]
      unfold hfind
      rw [if_pos hi]
    · rw [if_neg hi]
      rw [if_neg hi] at hb
      unfold hfind
      rw [if_neg hi]
      exact ih hb

theorem findEntryId_append_some (es es2 : List (List Char × Nat)) (name : List Char)
    (de : List Char × Nat) (h : findEntryId es name = some de) :
    findEntryId (es ++ es2) name = some de := by
  induction es with
  | nil => simp [findEntryId] at h
  | cons e rest ih =>
    rw [List.cons_append]
    unfold findEntryId at h ⊢
    by_cases he : e.1 = name
    · rw [if_pos he] at h ⊢
      exact h
    · rw [if_neg he] at h ⊢
      exact ih h

theorem findEntryId_none_iff (es : List (List Char × Nat)) (name : List Char) :
    findEntryId es name = none ↔ ∀ de ∈ es, de.1 ≠ name := by
  induction es with
  | nil => simp [findEntryId]
  | cons e rest ih =>
    unfold findEntryId
    by_cases he : e.1 = name
    · rw [if_pos he]
      simp [he]
    · rw [if_neg he]
      simp [he, ih]

theorem findEntryId_append_one (es : List (List Char × Nat)) (name : List Char)
    (de : List Char × Nat) (h : findEntryId es name = none) :
    findEntryId (es ++ [de]) name = if de.1 = name then some de else none := by
  induction es with
  | nil => rfl
  | cons e rest ih =>
    rw [List.cons_append]
    unfold findEntryId at h ⊢
    by_cases he : e.1 = name
    · rw [if_pos he] at h
      cases h
    · rw [if_neg he] at h ⊢
      exact ih h

/-- The heap evolution a mkdir makes: existing bindings keep their kind,
mode and payload, dnode entry lists only grow by appended entries, and
modtimes may change; fresh bindings may appear. -/
def HExt (h1 h2 : List (Nat × HNode)) : Prop :=
  ∀ id n, hfind h1 id = some n →
    match n with
    | .inode _ d m => ∃ mt2, hfind h2 id = some (.inode mt2 d m)
    | .dnode es _ m => ∃ es2 mt2, hfind h2 id = some (.dnode (es ++ es2) mt2 m)

theorem HExt_refl (h : List (Nat × HNode)) : HExt h h := by
  intro id n hfd
  cases n with
  | inode mt d m => exact ⟨mt, hfd⟩
  | dnode es mt m => exact ⟨[], mt, by simpa using hfd⟩

theorem HExt_trans {h1 h2 h3 : List (Nat × HNode)} (a : HExt h1 h2) (b : HExt h2 h3) :
    HExt h1 h3 := by
  intro id n hfd
  cases n with
  | inode mt d m =>
    obtain ⟨mt2, h2f⟩ := a id _ hfd
    obtain ⟨mt3, h3f⟩ := b id _ h2f
    exact ⟨mt3, h3f⟩
  | dnode es mt m =>
    obtain ⟨es2, mt2, h2f⟩ := a id _ hfd
    obtain ⟨es3, mt3, h3f⟩ := b id _ h2f
    exact ⟨es2 ++ es3, mt3, by rw [h3f, List.append_assoc]⟩

theorem hMode_stable {h1 h2 : List (Nat × HNode)} (hx : HExt h1 h2) {id : Nat} {n : HNode}
    (hb : hfind h1 id = some n) : hMode h2 id = hMode h1 id := by
  cases n with
  | inode mt d m =>
    obtain ⟨mt2, h2f⟩ := hx id _ hb
    unfold hMode
    rw [hb, h2f]
  | dnode es mt m =>
    obtain ⟨es2, mt2, h2f⟩ := hx id _ hb
    unfold hMode
    rw [hb, h2f]

theorem hBytes_ok_stable {h1 h2 : List (Nat × HNode)} (hx : HExt h1 h2) {id : Nat}
    {b : List Char} (hb : hBytes h1 id = .ok b) : hBytes h2 id = .ok b := by
  unfold hBytes at hb ⊢
  cases hfd : hfind h1 id with
  | none => rw [hfd] at hb; cases hb
  | some n =>
    rw [hfd] at hb
    cases n with
    | dnode es mt m => cases hb
    | inode mt d m =>
      obtain ⟨mt2, h2f⟩ := hx id _ hfd
      rw [h2f]
      dsimp only at hb ⊢
      by_cases hm : m &&& modeRead = 0
      · rw [if_pos hm] at hb
        cases hb
      · rw [if_neg hm] at hb ⊢
        exact hb

theorem hGetEntry_ok_stable {h1 h2 : List (Nat × HNode)} (hx : HExt h1 h2) {d : Nat}
    {name : List Char} {c : List Char × Nat} (h : hGetEntry h1 d name = .ok c) :
    hGetEntry h2 d name = .ok c := by
  unfold hGetEntry at h ⊢
  cases hfd : hfind h1 d with
  | none => rw [hfd] at h; cases h
  | some n =>
    rw [hfd] at h
    cases n with
    | inode mt dd m => cases h
    | dnode es mt m =>
      obtain ⟨es2, mt2, h2f⟩ := hx d _ hfd
      rw [h2f]
      dsimp only at h ⊢
      by_cases hm : m &&& modeRead = 0
      · rw [if_pos hm] at h
        cases h
      · rw [if_neg hm] at h ⊢
        cases hfe : findEntryId es name with
        | none => rw [hfe] at h; cases h
        | some de =>
          rw [hfe] at h
          rw [findEntryId_append_some es es2 name de hfe]
          exact h

/-- Well-formedness of a heap: every entry of every directory names a live
node. The read-write facade maintains it. -/
def WFheap (h : List (Nat × HNode)) : Prop :=
  ∀ id es mt m, hfind h id = some (.dnode es mt m) → ∀ de ∈ es, ∃ n, hfind h de.2 = some n

theorem findEntryId_mem (es : List (List Char × Nat)) (name : List Char)
    (de : List Char × Nat) (h : findEntryId es name = some de) : de ∈ es := by
  induction es with
  | nil => simp [findEntryId] at h
  | cons e rest ih =>
    unfold findEntryId at h
    by_cases he : e.1 = name
    · rw [if_pos he] at h
      injection h with h2
      subst h2
      exact List.mem_cons_self _ _
    · rw [if_neg he] at h
      exact List.mem_cons_of_mem e (ih h)

theorem bound_of_hMode_land_ne {h : List (Nat × HNode)} {id m0 : Nat}
    (hm : hMode h id &&& m0 ≠ 0) : ∃ n, hfind h id = some n := by
  unfold hMode at hm
  cases hfd : hfind h id with
  | none =>
    rw [hfd] at hm
    simp at hm
  | some n => exact ⟨n, rfl⟩

/-- `resolveBase` successes survive a mkdir-style heap evolution, given
stability of the re-resolution it may perform. -/
theorem resolveBase_ok_stable {h1 h2 : List (Nat × HNode)} {root : Nat}
    (hwf : WFheap h1) (hx : HExt h1 h2) (fuel : Nat)
    (IH : ∀ (path : List Char) (red id red2 : Nat),
        getResolvedDirEnt h1 root fuel path red = some (.ok id, red2) →
        getResolvedDirEnt h2 root fuel path red = some (.ok id, red2)) :
    ∀ (dir base : List Char) (de red id red2 : Nat),
      resolveBase h1 root fuel dir base de red = some (.ok id, red2) →
      resolveBase h2 root fuel dir base de red = some (.ok id, red2) := by
  intro dir base de red id red2 h
  unfold resolveBase resolveBaseWith at h ⊢
  by_cases hb : base = []
  · rw [if_pos hb] at h ⊢
    exact h
  rw [if_neg hb] at h ⊢
  cases hfd : hfind h1 de with
  | none =>
    rw [hfd] at h
    simp at h
  | some n =>
    rw [hfd] at h
    cases n with
    | inode mt d m => simp at h
    | dnode es mt m =>
      obtain ⟨es2, mt2, h2f⟩ := hx de _ hfd
      rw [h2f]
      dsimp only at h ⊢
      by_cases hm : m &&& modeRead = 0
      · rw [if_pos hm] at h
        simp at h
      rw [if_neg hm] at h ⊢
      cases hfe : findEntryId es base with
      | none =>
        rw [hfe] at h
        simp at h
      | some c =>
        rw [hfe] at h
        rw [findEntryId_append_some es es2 base c hfe]
        dsimp only at h ⊢
        obtain ⟨cn, hcb⟩ := hwf de es mt m hfd c (findEntryId_mem es base c hfe)
        rw [hMode_stable hx hcb]
        by_cases hsym : hMode h1 c.2 &&& fsModeSymlink = 0
        · rw [if_pos hsym] at h ⊢
          exact h
        rw [if_neg hsym] at h ⊢
        by_cases hred : red = 0
        · rw [if_pos hred] at h
          simp at h
        rw [if_neg hred] at h ⊢
        cases hby : hBytes h1 c.2 with
        | error e =>
          rw [hby] at h
          simp at h
        | ok b =>
          rw [hby] at h
          rw [hBytes_ok_stable hx hby]
          dsimp only at h ⊢
          exact IH _ _ _ _ h

/-- Resolution successes survive a mkdir-style heap evolution: the
resolved id and the remaining redirect budget are unchanged. -/
theorem getResolvedDirEnt_ok_stable {h1 h2 : List (Nat × HNode)} {root : Nat}
    (hwf : WFheap h1) (hx : HExt h1 h2) :
    ∀ (fuel : Nat) (path : List Char) (red id red2 : Nat),
      getResolvedDirEnt h1 root fuel path red = some (.ok id, red2) →
      getResolvedDirEnt h2 root fuel path red = some (.ok id, red2) := by
  intro fuel
  induction fuel with
  | zero =>
    intro path red id red2 h
    unfold getResolvedDirEnt at h
    cases h
  | succ fuel ih =>
    intro path red id red2 h
    unfold getResolvedDirEnt at h ⊢
    dsimp only at h ⊢
    by_cases hdir : (splitPath path).1 = [] ∨ (splitPath path).1 = ['/']
    · rw [if_pos hdir] at h ⊢
      by_cases hroot : hMode h1 root &&& modeRead = 0
      · rw [if_pos hroot] at h
        simp at h
      · obtain ⟨rn, hrb⟩ := bound_of_hMode_land_ne hroot
        rw [if_neg hroot] at h
        rw [hMode_stable hx hrb, if_neg hroot]
        dsimp only at h ⊢
        exact resolveBase_ok_stable hwf hx fuel ih _ _ _ _ _ _ h
    · rw [if_neg hdir] at h ⊢
      cases hrec : getResolvedDirEnt h1 root fuel (clean (splitPath path).1) red with
      | none =>
        rw [hrec] at h
        cases h
      | some pr =>
        rcases pr with ⟨res, redr⟩
        rw [hrec] at h
        cases res with
        | error e => simp at h
        | ok de =>
          rw [ih _ _ _ _ hrec]
          dsimp only at h ⊢
          exact resolveBase_ok_stable hwf hx fuel ih _ _ _ _ _ _ h

theorem hBytes_error_kind {heap : List (Nat × HNode)} {id : Nat} {e : Err}
    (h : hBytes heap id = .error e) : errIsExist e = false := by
  unfold hBytes at h
  cases hfd : hfind heap id with
  | none =>
    rw [hfd] at h
    cases h
    rfl
  | some n =>
    rw [hfd] at h
    cases n with
    | dnode es mt m =>
      cases h
      rfl
    | inode mt d m =>
      dsimp only at h
      by_cases hm : m &&& modeRead = 0
      · rw [if_pos hm] at h
        cases h
        rfl
      · rw [if_neg hm] at h
        cases h

theorem resolveBase_error_not_exist {heap : List (Nat × HNode)} {root fuel : Nat}
    (IH : ∀ (path : List Char) (red : Nat) (e : Err) (red2 : Nat),
        getResolvedDirEnt heap root fuel path red = some (.error e, red2) →
        errIsExist e = false) :
    ∀ (dir base : List Char) (de red : Nat) (e : Err) (red2 : Nat),
      resolveBase heap root fuel dir base de red = some (.error e, red2) →
      errIsExist e = false := by
  intro dir base de red e red2 h
  unfold resolveBase resolveBaseWith at h
  by_cases hb : base = []
  · rw [if_pos hb] at h
    simp at h
  rw [if_neg hb] at h
  cases hfd : hfind heap de with
  | none =>
    rw [hfd] at h
    simp at h
    rw [← h.1]
    rfl
  | some n =>
    rw [hfd] at h
    cases n with
    | inode mt d m =>
      simp at h
      rw [← h.1]
      rfl
    | dnode es mt m =>
      dsimp only at h
      by_cases hm : m &&& modeRead = 0
      · rw [if_pos hm] at h
        simp at h
        rw [← h.1]
        rfl
      rw [if_neg hm] at h
      cases hfe : findEntryId es base with
      | none =>
        rw [hfe] at h
        simp at h
        rw [← h.1]
        rfl
      | some c =>
        rw [hfe] at h
        dsimp only at h
        by_cases hsym : hMode heap c.2 &&& fsModeSymlink = 0
        · rw [if_pos hsym] at h
          simp at h
        rw [if_neg hsym] at h
        by_cases hred : red = 0
        · rw [if_pos hred] at h
          simp at h
          rw [← h.1]
          rfl
        rw [if_neg hred] at h
        cases hby : hBytes heap c.2 with
        | error e2 =>
          rw [hby] at h
          simp at h
          rw [← h.1]
          exact hBytes_error_kind hby
        | ok b =>
          rw [hby] at h
          dsimp only at h
          exact IH _ _ _ _ h

theorem getResolvedDirEnt_error_not_exist {heap : List (Nat × HNode)} {root : Nat} :
    ∀ (fuel : Nat) (path : List Char) (red : Nat) (e : Err) (red2 : Nat),
      getResolvedDirEnt heap root fuel path red = some (.error e, red2) →
      errIsExist e = false := by
  intro fuel
  induction fuel with
  | zero =>
    intro path red e red2 h
    unfold getResolvedDirEnt at h
    cases h
  | succ fuel ih =>
    intro path red e red2 h
    unfold getResolvedDirEnt at h
    dsimp only at h
    by_cases hdir : (splitPath path).1 = [] ∨ (splitPath path).1 = ['/']
    · rw [if_pos hdir] at h
      by_cases hroot : hMode heap root &&& modeRead = 0
      · rw [if_pos hroot] at h
        simp at h
        rw [← h.1]
        rfl
      · rw [if_neg hroot] at h
        dsimp only at h
        exact resolveBase_error_not_exist ih _ _ _ _ _ _ h
    · rw [if_neg hdir] at h
      cases hrec : getResolvedDirEnt heap root fuel (clean (splitPath path).1) red with
      | none =>
        rw [hrec] at h
        cases h
      | some pr =>
        rcases pr with ⟨res, redr⟩
        rw [hrec] at h
        cases res with
        | error e2 =>
          simp at h
          rw [← h.1]
          exact ih _ _ _ _ hrec
        | ok de =>
          dsimp only at h
          exact resolveBase_error_not_exist ih _ _ _ _ _ _ h

theorem lastIndex_none_iff (l : List Char) (t : Char) :
    lastIndex l t = none ↔ ∀ c ∈ l, c ≠ t := by
  induction l with
  | nil => simp [lastIndex]
  | cons a rest ih =>
    unfold lastIndex
    cases hr : lastIndex rest t with
    | some i =>
      constructor
      · intro h
        cases h
      · intro h
        have h2 : lastIndex rest t = none :=
          ih.mpr (fun c hc => h c (List.mem_cons_of_mem a hc))
        rw [h2] at hr
        cases hr
    | none =>
      by_cases ha : a = t
      · rw [if_pos ha]
        constructor
        · intro h
          cases h
        · intro h
          exact absurd ha (h a (List.mem_cons_self a rest))
      · rw [if_neg ha]
        constructor
        · intro _ c hc
          rcases List.mem_cons.mp hc with h1 | h1
          · rw [h1]
            exact ha
          · exact (ih.mp hr) c h1
        · intro _
          rfl

theorem lastIndex_lt_length (l : List Char) (t : Char) :
    ∀ i, lastIndex l t = some i → i < l.length := by
  induction l with
  | nil => intro i h; simp [lastIndex] at h
  | cons a rest ih =>
    intro i h
    unfold lastIndex at h
    cases hr : lastIndex rest t with
    | some j =>
      rw [hr] at h
      injection h with h2
      subst h2
      have := ih j hr
      simp only [List.length_cons]
      omega
    | none =>
      rw [hr] at h
      by_cases ha : a = t
      · rw [if_pos ha] at h
        injection h with h2
        subst h2
        simp
      · rw [if_neg ha] at h
        cases h

theorem lastIndex_drop_ne (l : List Char) (t : Char) :
    ∀ i, lastIndex l t = some i → ∀ c ∈ l.drop (i + 1), c ≠ t := by
  induction l with
  | nil => intro i h; simp [lastIndex] at h
  | cons a rest ih =>
    intro i h
    unfold lastIndex at h
    cases hr : lastIndex rest t with
    | some j =>
      rw [hr] at h
      injection h with h2
      subst h2
      intro c hc
      exact ih j hr c (by simpa using hc)
    | none =>
      rw [hr] at h
      by_cases ha : a = t
      · rw [if_pos ha] at h
        injection h with h2
        subst h2
        intro c hc
        exact (lastIndex_none_iff rest t).mp hr c (by simpa using hc)
      · rw [if_neg ha] at h
        cases h

/-- When the split of a path has a nonempty base, `Base` returns exactly
that base (there is no trailing separator to strip). -/
theorem basePath_eq_split (q : List Char) (h : (splitPath q).2 ≠ []) :
    basePath q = (splitPath q).2 := by
  unfold splitPath at h ⊢
  cases hli : lastIndex q '/' with
  | none =>
    rw [hli] at h
    dsimp only at h ⊢
    unfold basePath
    rw [if_neg h]
    have hno : ∀ c ∈ q, c ≠ '/' := (lastIndex_none_iff q '/').mp hli
    have hdw : q.reverse.dropWhile (fun c => c = '/') = q.reverse := by
      cases hrv : q.reverse with
      | nil => rfl
      | cons b bs =>
        have hb : b ∈ q := by
          rw [← List.mem_reverse, hrv]
          exact List.mem_cons_self b bs
        rw [List.dropWhile_cons, if_neg (by simpa using hno b hb)]
    rw [hdw, List.reverse_reverse]
    dsimp only
    rw [if_neg h, hli]
  | some i =>
    rw [hli] at h
    dsimp only at h ⊢
    have hq : q ≠ [] := by
      intro he
      rw [he] at h
      simp at h
    unfold basePath
    rw [if_neg hq]
    have hne : ∀ c ∈ q.drop (i + 1), c ≠ '/' := lastIndex_drop_ne q '/' i hli
    have hsplit : q.reverse = (q.drop (i + 1)).reverse ++ (q.take (i + 1)).reverse := by
      rw [← List.reverse_append, List.take_append_drop]
    have hdw : q.reverse.dropWhile (fun c => c = '/') = q.reverse := by
      cases hd : (q.drop (i + 1)).reverse with
      | nil => exact absurd (List.reverse_eq_nil_iff.mp hd) h
      | cons b bs =>
        have hb : b ∈ q.drop (i + 1) := by
          rw [← List.mem_reverse, hd]
          exact List.mem_cons_self b bs
        have hform : q.reverse = b :: (bs ++ (q.take (i + 1)).reverse) := by
          rw [hsplit, hd]
          rfl
        rw [hform, List.dropWhile_cons, if_neg (by simpa using hne b hb), ← hform]
    rw [hdw, List.reverse_reverse]
    dsimp only
    rw [if_neg hq, hli]

theorem hGetEntry_error_kind {heap : List (Nat × HNode)} {d : Nat} {name : List Char}
    {e : Err} (h : hGetEntry heap d name = .error e) :
    e = .permission ∨ e = .notExist ∨ e = .invalid := by
  unfold hGetEntry at h
  cases hfd : hfind heap d with
  | none =>
    rw [hfd] at h
    injection h with h2
    exact Or.inr (Or.inr h2.symm)
  | some n =>
    rw [hfd] at h
    cases n with
    | inode mt d0 m =>
      injection h with h2
      exact Or.inr (Or.inr h2.symm)
    | dnode es mt m =>
      dsimp only at h
      by_cases hm : m &&& modeRead = 0
      · rw [if_pos hm] at h
        injection h with h2
        exact Or.inl h2.symm
      · rw [if_neg hm] at h
        cases hfe : findEntryId es name with
        | some de =>
          rw [hfe] at h
          cases h
        | none =>
          rw [hfe] at h
          injection h with h2
          exact Or.inr (Or.inl h2.symm)

theorem hSetEntry_error_kind {heap : List (Nat × HNode)} {d : Nat}
    {de : List Char × Nat} {now : Nat} {e : Err}
    (h : hSetEntry heap d de now = .error e) : e = .permission ∨ e = .invalid := by
  unfold hSetEntry at h
  cases hfd : hfind heap d with
  | none =>
    rw [hfd] at h
    injection h with h2
    exact Or.inr h2.symm
  | some n =>
    rw [hfd] at h
    cases n with
    | inode mt d0 m =>
      injection h with h2
      exact Or.inr h2.symm
    | dnode es mt m =>
      dsimp only at h
      by_cases hm : m &&& modeWrite = 0
      · rw [if_pos hm] at h
        injection h with h2
        exact Or.inl h2.symm
      · rw [if_neg hm] at h
        cases h

theorem hGetEntry_notExist_inv {heap : List (Nat × HNode)} {d : Nat} {name : List Char}
    (h : hGetEntry heap d name = .error .notExist) :
    ∃ es mt m, hfind heap d = some (.dnode es mt m) ∧ m &&& modeRead ≠ 0 ∧
      findEntryId es name = none := by
  unfold hGetEntry at h
  cases hfd : hfind heap d with
  | none =>
    rw [hfd] at h
    injection h with h2
    cases h2
  | some n =>
    rw [hfd] at h
    cases n with
    | inode mt d0 m =>
      injection h with h2
      cases h2
    | dnode es mt m =>
      dsimp only at h
      by_cases hm : m &&& modeRead = 0
      · rw [if_pos hm] at h
        injection h with h2
        cases h2
      · rw [if_neg hm] at h
        cases hfe : findEntryId es name with
        | some de =>
          rw [hfe] at h
          cases h
        | none => exact ⟨es, mt, m, rfl, hm, hfe⟩

theorem hSetEntry_ok_inv {heap : List (Nat × HNode)} {d : Nat} {de : List Char × Nat}
    {now : Nat} {heap2 : List (Nat × HNode)} (h : hSetEntry heap d de now = .ok heap2) :
    ∃ es mt m, hfind heap d = some (.dnode es mt m) ∧ m &&& modeWrite ≠ 0 ∧
      heap2 = hset heap d (.dnode (es ++ [de]) now m) := by
  unfold hSetEntry at h
  cases hfd : hfind heap d with
  | none =>
    rw [hfd] at h
    cases h
  | some n =>
    rw [hfd] at h
    cases n with
    | inode mt d0 m => cases h
    | dnode es mt m =>
      dsimp only at h
      by_cases hm : m &&& modeWrite = 0
      · rw [if_pos hm] at h
        cases h
      · rw [if_neg hm] at h
        injection h with h2
        exact ⟨es, mt, m, rfl, hm, h2.symm⟩

theorem hRemoveEntry_ok_inv {heap : List (Nat × HNode)} {d : Nat} {name : List Char}
    {now : Nat} {heap1 : List (Nat × HNode)} (h : hRemoveEntry heap d name now = .ok heap1) :
    ∃ es mt m es2, hfind heap d = some (.dnode es mt m) ∧ m &&& modeWrite ≠ 0 ∧
      removeFirst es name = some es2 ∧ heap1 = hset heap d (.dnode es2 now m) := by
  unfold hRemoveEntry at h
  cases hfd : hfind heap d with
  | none =>
    rw [hfd] at h
    cases h
  | some n =>
    rw [hfd] at h
    cases n with
    | inode mt d0 m => cases h
    | dnode es mt m =>
      dsimp only at h
      by_cases hm : m &&& modeWrite = 0
      · rw [if_pos hm] at h
        cases h
      · rw [if_neg hm] at h
        cases hrf : removeFirst es name with
        | none =>
          rw [hrf] at h
          cases h
        | some es2 =>
          rw [hrf] at h
          injection h with h2
          exact ⟨es, mt, m, es2, rfl, hm, hrf, h2.symm⟩

theorem removeFirst_sublist (es : List (List Char × Nat)) (name : List Char) :
    ∀ es2, removeFirst es name = some es2 → es2.Sublist es := by
  induction es with
  | nil => intro es2 h; cases h
  | cons de rest ih =>
    intro es2 h
    unfold removeFirst at h
    by_cases hd : de.1 = name
    · rw [if_pos hd] at h
      injection h with h2
      rw [← h2]
      exact List.sublist_cons_self de rest
    · rw [if_neg hd] at h
      cases hr : removeFirst rest name with
      | none =>
        rw [hr] at h
        cases h
      | some es3 =>
        rw [hr] at h
        injection h with h2
        rw [← h2]
        exact List.Sublist.cons₂ de (ih es3 hr)

theorem hset_unbound (h : List (Nat × HNode)) (d : Nat) (v : HNode)
    (hb : hfind h d = none) : hset h d v = h := by
  induction h with
  | nil => rfl
  | cons p rest ih =>
    rcases p with ⟨i, n⟩
    unfold hfind at hb
    unfold hset
    by_cases hi : i = d
    · rw [if_pos hi] at hb
      cases hb
    · rw [if_neg hi] at hb ⊢
      rw [ih hb]

theorem hfind_hset_cases (h : List (Nat × HNode)) (d : Nat) (v : HNode) (id : Nat) :
    hfind (hset h d v) id = hfind h id ∨
      (hfind (hset h d v) id = some v ∧ id = d) := by
  by_cases hid : id = d
  · subst hid
    cases hb : hfind h id with
    | none =>
      left
      rw [hset_unbound h id v hb]
      exact hb
    | some n0 =>
      right
      exact ⟨hfind_hset_self h id v n0 hb, rfl⟩
  · left
    exact hfind_hset_other h d v id hid

theorem hfind_append_last (a : List (Nat × HNode)) (k : Nat) (v : HNode) :
    ∃ n, hfind (a ++ [(k, v)]) k = some n := by
  rw [hfind_append]
  cases hfa : hfind a k with
  | some n => exact ⟨n, rfl⟩
  | none => exact ⟨v, by simp [hfind]⟩

theorem HExt_bound {h1 h2 : List (Nat × HNode)} (hx : HExt h1 h2) {id : Nat} {n : HNode}
    (hb : hfind h1 id = some n) : ∃ n2, hfind h2 id = some n2 := by
  have := hx id n hb
  cases n with
  | inode mt d m =>
    obtain ⟨mt2, h2f⟩ := this
    exact ⟨_, h2f⟩
  | dnode es mt m =>
    obtain ⟨es2, mt2, h2f⟩ := this
    exact ⟨_, h2f⟩

/-- `getDirEnt` successes survive a mkdir-style heap evolution. -/
theorem getDirEnt_ok_stable {h1 h2 : List (Nat × HNode)} {root fuel : Nat}
    {path : List Char} {id : Nat} (hwf : WFheap h1) (hx : HExt h1 h2)
    (h : getDirEnt h1 root fuel path = some (.ok id)) :
    getDirEnt h2 root fuel path = some (.ok id) := by
  unfold getDirEnt at h ⊢
  cases hr : getResolvedDirEnt h1 root fuel (joinPath [['/'], path]) maxRedirects with
  | none =>
    rw [hr] at h
    cases h
  | some pr =>
    rcases pr with ⟨res, red2⟩
    rw [hr] at h
    cases res with
    | error e => simp at h
    | ok id0 =>
      dsimp only at h
      rw [getResolvedDirEnt_ok_stable hwf hx fuel _ _ _ _ hr]
      dsimp only
      cases hfd : hfind h1 id0 with
      | none =>
        rw [hfd] at h
        simp at h
      | some n =>
        rw [hfd] at h
        cases n with
        | inode mt d m => simp at h
        | dnode es mt m =>
          obtain ⟨es2, mt2, h2f⟩ := hx id0 _ hfd
          rw [h2f]
          exact h

/-- `getDirEnt` never fails with `Exist`. -/
theorem getDirEnt_error_not_exist {heap : List (Nat × HNode)} {root fuel : Nat}
    {path : List Char} {e : Err} (h : getDirEnt heap root fuel path = some (.error e)) :
    errIsExist e = false := by
  unfold getDirEnt at h
  cases hr : getResolvedDirEnt heap root fuel (joinPath [['/'], path]) maxRedirects with
  | none =>
    rw [hr] at h
    cases h
  | some pr =>
    rcases pr with ⟨res, red2⟩
    rw [hr] at h
    cases res with
    | error e2 =>
      dsimp only at h
      injection h with h2
      injection h2 with h3
      rw [← h3]
      exact getResolvedDirEnt_error_not_exist fuel _ _ _ _ hr
    | ok id0 =>
      dsimp only at h
      cases hfd : hfind heap id0 with
      | none =>
        rw [hfd] at h
        injection h with h2
        injection h2 with h3
        rw [← h3]
        rfl
      | some n =>
        rw [hfd] at h
        cases n with
        | inode mt d m =>
          injection h with h2
          injection h2 with h3
          rw [← h3]
          rfl
        | dnode es mt m => simp at h

/-- Under the `mustNotExist` policy the only error carrying `Exist` is the
policy violation itself. -/
theorem getEntryWithParent_mustNotExist_error {heap : List (Nat × HNode)} {root fuel : Nat}
    {q : List Char} {e : Err}
    (h : getEntryWithParent heap root fuel q .mustNotExist = some (.error e))
    (he : errIsExist e = true) : e = .exist := by
  unfold getEntryWithParent at h
  dsimp only at h
  by_cases h0 : (splitPath q).2 = []
  · rw [if_pos h0] at h
    injection h with h2
    injection h2 with h3
    rw [← h3] at he
    cases he
  rw [if_neg h0] at h
  cases hgd : getDirEnt heap root fuel (splitPath q).1 with
  | none =>
    rw [hgd] at h
    cases h
  | some r =>
    rw [hgd] at h
    cases r with
    | error e2 =>
      dsimp only at h
      injection h with h2
      injection h2 with h3
      rw [← h3] at he
      rw [getDirEnt_error_not_exist hgd] at he
      cases he
    | ok d =>
      dsimp only at h
      cases hge : hGetEntry heap d (splitPath q).2 with
      | error e2 =>
        rw [hge] at h
        dsimp only at h
        by_cases hc : e2 = .notExist ∧ (ExistsPolicy.mustNotExist : ExistsPolicy) ≠ .mustExist
        · rw [if_pos hc] at h
          simp at h
        · rw [if_neg hc] at h
          injection h with h2
          injection h2 with h3
          rw [← h3] at he
          rcases hGetEntry_error_kind hge with h4 | h4 | h4
          · rw [h4] at he
            cases he
          · exact absurd ⟨h4, by simp⟩ hc
          · rw [h4] at he
            cases he
      | ok c =>
        rw [hge] at h
        dsimp only at h
        rw [if_pos rfl] at h
        injection h with h2
        injection h2 with h3
        exact h3.symm

/-- A `mustNotExist` with-parent success means: nonempty terminal, parent
directory resolved, and the terminal absent from it. -/
theorem getEntryWithParent_mustNotExist_ok {heap : List (Nat × HNode)} {root fuel : Nat}
    {q : List Char} {nd : Nat} {c? : Option (List Char × Nat)}
    (h : getEntryWithParent heap root fuel q .mustNotExist = some (.ok (nd, c?))) :
    (splitPath q).2 ≠ [] ∧ getDirEnt heap root fuel (splitPath q).1 = some (.ok nd) ∧
      hGetEntry heap nd (splitPath q).2 = .error .notExist ∧ c? = none := by
  unfold getEntryWithParent at h
  dsimp only at h
  by_cases h0 : (splitPath q).2 = []
  · rw [if_pos h0] at h
    simp at h
  rw [if_neg h0] at h
  cases hgd : getDirEnt heap root fuel (splitPath q).1 with
  | none =>
    rw [hgd] at h
    cases h
  | some r =>
    rw [hgd] at h
    cases r with
    | error e => simp at h
    | ok d =>
      dsimp only at h
      cases hge : hGetEntry heap d (splitPath q).2 with
      | error e2 =>
        rw [hge] at h
        dsimp only at h
        by_cases hc : e2 = .notExist ∧ (ExistsPolicy.mustNotExist : ExistsPolicy) ≠ .mustExist
        · rw [if_pos hc] at h
          injection h with h2
          injection h2 with h3
          injection h3 with h4 h5
          subst h4
          rw [hc.1] at hge
          exact ⟨h0, rfl, hge, h5.symm⟩
        · rw [if_neg hc] at h
          simp at h
      | ok c =>
        rw [hge] at h
        dsimp only at h
        rw [if_pos rfl] at h
        simp at h

/-- The `Exist` outcome of a `mustNotExist` with-parent resolution
survives a mkdir-style heap evolution. -/
theorem getEntryWithParent_exist_stable {h1 h2 : List (Nat × HNode)} {root fuel : Nat}
    {q : List Char} (hwf : WFheap h1) (hx : HExt h1 h2)
    (h : getEntryWithParent h1 root fuel q .mustNotExist = some (.error .exist)) :
    getEntryWithParent h2 root fuel q .mustNotExist = some (.error .exist) := by
  unfold getEntryWithParent at h ⊢
  dsimp only at h ⊢
  by_cases h0 : (splitPath q).2 = []
  · rw [if_pos h0] at h
    simp at h
  rw [if_neg h0] at h ⊢
  cases hgd : getDirEnt h1 root fuel (splitPath q).1 with
  | none =>
    rw [hgd] at h
    cases h
  | some r =>
    rw [hgd] at h
    cases r with
    | error e2 =>
      dsimp only at h
      injection h with hh
      injection hh with h3
      have := getDirEnt_error_not_exist hgd
      rw [h3] at this
      cases this
    | ok d =>
      dsimp only at h
      rw [getDirEnt_ok_stable hwf hx hgd]
      dsimp only
      cases hge : hGetEntry h1 d (splitPath q).2 with
      | error e2 =>
        rw [hge] at h
        dsimp only at h
        by_cases hc : e2 = .notExist ∧ (ExistsPolicy.mustNotExist : ExistsPolicy) ≠ .mustExist
        · rw [if_pos hc] at h
          simp at h
        · rw [if_neg hc] at h
          injection h with hh
          injection hh with h3
          rcases hGetEntry_error_kind hge with h4 | h4 | h4
          · rw [h4] at h3
            cases h3
          · exact absurd ⟨h4, by simp⟩ hc
          · rw [h4] at h3
            cases h3
      | ok c =>
        rw [hGetEntry_ok_stable hx hge]
        dsimp only
        rw [if_pos rfl]

/-- A successful `mkdir` keeps the root, extends the heap, preserves
well-formedness, and leaves the created path in the `Exist` state for the
`mustNotExist` policy. -/
theorem mkdirF_ok {fs : FSH} {fuel : Nat} {op : String} {opath q : List Char}
    {perm now : Nat} {fs2 : FSH} (hwf : WFheap fs.heap)
    (h : mkdirF fs fuel op opath q perm now = some (.ok (), fs2)) :
    fs2.root = fs.root ∧ HExt fs.heap fs2.heap ∧ WFheap fs2.heap ∧
      getEntryWithParent fs2.heap fs2.root fuel q .mustNotExist = some (.error .exist) := by
  unfold mkdirF at h
  cases hgp : getEntryWithParent fs.heap fs.root fuel q .mustNotExist with
  | none =>
    rw [hgp] at h
    cases h
  | some r =>
    rw [hgp] at h
    cases r with
    | error e => simp at h
    | ok pr =>
      rcases pr with ⟨d, c?⟩
      dsimp only at h
      cases hse : hSetEntry fs.heap d (basePath q, fs.nextId) now with
      | error e =>
        rw [hse] at h
        simp at h
      | ok heap2 =>
        rw [hse] at h
        dsimp only at h
        injection h with h2
        injection h2 with h3 h4
        subst h4
        obtain ⟨h0, hgd, hge, hcn⟩ := getEntryWithParent_mustNotExist_ok hgp
        obtain ⟨es, mt, m, hfd, hmr, hfe⟩ := hGetEntry_notExist_inv hge
        obtain ⟨es2, mt2, m2, hfd2, hmw, hh2⟩ := hSetEntry_ok_inv hse
        rw [hfd] at hfd2
        injection hfd2 with hfd3
        injection hfd3 with ke1 ke2 ke3
        subst ke1
        subst ke3
        subst hh2
        have hbase : basePath q = (splitPath q).2 := basePath_eq_split q h0
        have hext : HExt fs.heap
            (hset fs.heap d (.dnode (es ++ [(basePath q, fs.nextId)]) now m)
              ++ [(fs.nextId, .dnode [] now (fsModeDir ||| perm))]) := by
          intro id n hb
          by_cases hid : id = d
          · subst hid
            rw [hfd] at hb
            injection hb with hb2
            subst hb2
            dsimp only
            refine ⟨[(basePath q, fs.nextId)], now, ?_⟩
            rw [hfind_append, hfind_hset_self fs.heap id _ _ hfd]
          · have hother := hfind_hset_other fs.heap d
              (.dnode (es ++ [(basePath q, fs.nextId)]) now m) id hid
            cases n with
            | inode mt1 d1 m1 =>
              refine ⟨mt1, ?_⟩
              rw [hfind_append, hother, hb]
            | dnode es1 mt1 m1 =>
              refine ⟨[], mt1, ?_⟩
              rw [hfind_append, hother, hb]
              simp
        have hwf2 : WFheap
            (hset fs.heap d (.dnode (es ++ [(basePath q, fs.nextId)]) now m)
              ++ [(fs.nextId, .dnode [] now (fsModeDir ||| perm))]) := by
          intro id es0 mt0 m0 hb de hde
          rw [hfind_append] at hb
          cases hfa : hfind
              (hset fs.heap d (.dnode (es ++ [(basePath q, fs.nextId)]) now m)) id with
          | none =>
            rw [hfa] at hb
            dsimp only at hb
            unfold hfind at hb
            by_cases hni : fs.nextId = id
            · rw [if_pos hni] at hb
              injection hb with hb2
              injection hb2 with je1 je2 je3
              rw [← je1] at hde
              cases hde
            · rw [if_neg hni] at hb
              simp [hfind] at hb
          | some nx =>
            rw [hfa] at hb
            dsimp only at hb
            injection hb with hb2
            subst hb2
            rcases hfind_hset_cases fs.heap d
                (.dnode (es ++ [(basePath q, fs.nextId)]) now m) id with hcase | ⟨hcase, hid⟩
            · rw [hcase] at hfa
              obtain ⟨n1, hn1⟩ := hwf id es0 mt0 m0 hfa de hde
              exact HExt_bound hext hn1
            · rw [hcase] at hfa
              injection hfa with hfa2
              injection hfa2 with je1 je2 je3
              rw [← je1] at hde
              rcases List.mem_append.mp hde with hmem | hmem
              · obtain ⟨n1, hn1⟩ := hwf d es mt m hfd de hmem
                exact HExt_bound hext hn1
              · have hde0 : de = (basePath q, fs.nextId) := by simpa using hmem
                rw [hde0]
                exact hfind_append_last _ fs.nextId _
        refine ⟨rfl, hext, hwf2, ?_⟩
        have hfdn : hfind
            (hset fs.heap d (.dnode (es ++ [(basePath q, fs.nextId)]) now m)
              ++ [(fs.nextId, .dnode [] now (fsModeDir ||| perm))]) d
            = some (.dnode (es ++ [(basePath q, fs.nextId)]) now m) := by
          rw [hfind_append, hfind_hset_self fs.heap d _ _ hfd]
        have hge2 : hGetEntry
            (hset fs.heap d (.dnode (es ++ [(basePath q, fs.nextId)]) now m)
              ++ [(fs.nextId, .dnode [] now (fsModeDir ||| perm))]) d (splitPath q).2
            = .ok (basePath q, fs.nextId) := by
          unfold hGetEntry
          rw [hfdn]
          dsimp only
          rw [if_neg hmr, findEntryId_append_one es (splitPath q).2 (basePath q, fs.nextId) hfe]
          rw [if_pos hbase]
        unfold getEntryWithParent
        dsimp only
        rw [if_neg h0]
        rw [getDirEnt_ok_stable hwf hext hgd]
        dsimp only
        rw [hge2]
        dsimp only
        rw [if_pos rfl]

/-- A failing `mkdir` leaves the FS untouched; the error is wrapped
`{op, opath}`, and when it carries `Exist` the path was already in the
`Exist` state before the call. -/
theorem mkdirF_error {fs : FSH} {fuel : Nat} {op : String} {opath q : List Char}
    {perm now : Nat} {e : Err} {fs1 : FSH}
    (h : mkdirF fs fuel op opath q perm now = some (.error e, fs1)) :
    fs1 = fs ∧ ∃ e0, e = .pathError op (String.mk opath) e0 ∧
      (errIsExist e0 = true →
        getEntryWithParent fs.heap fs.root fuel q .mustNotExist = some (.error .exist)) := by
  unfold mkdirF at h
  cases hgp : getEntryWithParent fs.heap fs.root fuel q .mustNotExist with
  | none =>
    rw [hgp] at h
    cases h
  | some r =>
    rw [hgp] at h
    cases r with
    | error e0 =>
      dsimp only at h
      injection h with h2
      injection h2 with h3 h4
      injection h3 with h5
      refine ⟨h4.symm, e0, h5.symm, ?_⟩
      intro hex
      have he0 := getEntryWithParent_mustNotExist_error hgp hex
      rw [he0]
    | ok pr =>
      rcases pr with ⟨d, c?⟩
      dsimp only at h
      cases hse : hSetEntry fs.heap d (basePath q, fs.nextId) now with
      | error e0 =>
        rw [hse] at h
        dsimp only at h
        injection h with h2
        injection h2 with h3 h4
        injection h3 with h5
        refine ⟨h4.symm, e0, h5.symm, ?_⟩
        intro hex
        rcases hSetEntry_error_kind hse with h6 | h6
        · rw [h6] at hex
          cases hex
        · rw [h6] at hex
          cases hex
      | ok heap2 =>
        rw [hse] at h
        simp at h

/-- A successful `MkdirAll` scan keeps the root, extends the heap, and
preserves well-formedness. -/
theorem mkdirAllLoop_ext :
    ∀ (k fuel : Nat) (path cpath : List Char) (perm now : Nat) (fs : FSH) (last : Nat)
      (fs2 : FSH), WFheap fs.heap →
      mkdirAllLoop fuel path cpath perm now k fs last = some (.ok (), fs2) →
      fs2.root = fs.root ∧ HExt fs.heap fs2.heap ∧ WFheap fs2.heap := by
  intro k
  induction k with
  | zero =>
    intro fuel path cpath perm now fs last fs2 hwf h
    unfold mkdirAllLoop at h
    cases h
  | succ k ih =>
    intro fuel path cpath perm now fs last fs2 hwf h
    unfold mkdirAllLoop at h
    cases hci : charIndex (cpath.drop last) '/' with
    | none =>
      rw [hci] at h
      obtain ⟨h1, h2, h3, -⟩ := mkdirF_ok hwf h
      exact ⟨h1, h2, h3⟩
    | some pos =>
      rw [hci] at h
      dsimp only at h
      by_cases hp : pos = 0
      · rw [if_pos hp] at h
        exact ih fuel path cpath perm now fs (last + 1) fs2 hwf h
      · rw [if_neg hp] at h
        cases hmk : mkdirF fs fuel "mkdirall" path (cpath.take (last + pos)) perm now with
        | none =>
          rw [hmk] at h
          cases h
        | some r =>
          rw [hmk] at h
          rcases r with ⟨res, fs1⟩
          cases res with
          | error e =>
            dsimp only at h
            by_cases hex : errIsExist e
            · rw [if_pos hex] at h
              obtain ⟨hfs1, -⟩ := mkdirF_error hmk
              rw [hfs1] at h
              exact ih fuel path cpath perm now fs (last + pos) fs2 hwf h
            · rw [if_neg hex] at h
              simp at h
          | ok u =>
            cases u
            dsimp only at h
            obtain ⟨h1, h2, h3, -⟩ := mkdirF_ok hwf hmk
            obtain ⟨g1, g2, g3⟩ := ih fuel path cpath perm now fs1 (last + pos) fs2 h3 h
            exact ⟨by rw [g1, h1], HExt_trans h2 g2, g3⟩

/-- Re-running a successful `MkdirAll` scan from the resulting state fails
with a wrapped `Exist` and leaves the state untouched. -/
theorem mkdirAllLoop_second :
    ∀ (k fuel : Nat) (path cpath : List Char) (perm now perm2 now2 : Nat) (fs : FSH)
      (last : Nat) (fs2 : FSH), WFheap fs.heap →
      mkdirAllLoop fuel path cpath perm now k fs last = some (.ok (), fs2) →
      mkdirAllLoop fuel path cpath perm2 now2 k fs2 last
        = some (.error (.pathError "mkdirall" (String.mk path) .exist), fs2) := by
  intro k
  induction k with
  | zero =>
    intro fuel path cpath perm now perm2 now2 fs last fs2 hwf h
    unfold mkdirAllLoop at h
    cases h
  | succ k ih =>
    intro fuel path cpath perm now perm2 now2 fs last fs2 hwf h
    unfold mkdirAllLoop at h ⊢
    cases hci : charIndex (cpath.drop last) '/' with
    | none =>
      rw [hci] at h
      dsimp only at h ⊢
      obtain ⟨-, -, -, hgp2⟩ := mkdirF_ok hwf h
      unfold mkdirF
      rw [hgp2]
    | some pos =>
      rw [hci] at h
      dsimp only at h ⊢
      by_cases hp : pos = 0
      · rw [if_pos hp] at h ⊢
        exact ih fuel path cpath perm now perm2 now2 fs (last + 1) fs2 hwf h
      · rw [if_neg hp] at h ⊢
        cases hmk : mkdirF fs fuel "mkdirall" path (cpath.take (last + pos)) perm now with
        | none =>
          rw [hmk] at h
          cases h
        | some r =>
          rw [hmk] at h
          rcases r with ⟨res, fs1⟩
          cases res with
          | error e =>
            dsimp only at h
            by_cases hex : errIsExist e
            · rw [if_pos hex] at h
              obtain ⟨hfs1, e0, he0, himp⟩ := mkdirF_error hmk
              rw [hfs1] at h
              have hex0 : errIsExist e0 = true := by
                rw [he0] at hex
                exact hex
              have hexist := himp hex0
              obtain ⟨g1, g2, g3⟩ := mkdirAllLoop_ext k fuel path cpath
                perm now fs (last + pos) fs2 hwf h
              have hexist2 := getEntryWithParent_exist_stable hwf g2 hexist
              have hmk2 : mkdirF fs2 fuel "mkdirall" path (cpath.take (last + pos))
                  perm2 now2
                  = some (.error (.pathError "mkdirall" (String.mk path) .exist), fs2) := by
                unfold mkdirF
                rw [g1, hexist2]
              rw [hmk2]
              dsimp only
              rw [if_pos (show errIsExist (Err.pathError "mkdirall" (String.mk path)
                Err.exist) = true from rfl)]
              exact ih fuel path cpath perm now perm2 now2 fs (last + pos) fs2 hwf h
            · rw [if_neg hex] at h
              simp at h
          | ok u =>
            cases u
            dsimp only at h
            obtain ⟨h1, h2, h3, hgp1⟩ := mkdirF_ok hwf hmk
            obtain ⟨g1, g2, g3⟩ := mkdirAllLoop_ext k fuel path cpath
              perm now fs1 (last + pos) fs2 h3 h
            have hexist2 := getEntryWithParent_exist_stable h3 g2 hgp1
            have hmk2 : mkdirF fs2 fuel "mkdirall" path (cpath.take (last + pos))
                perm2 now2
                = some (.error (.pathError "mkdirall" (String.mk path) .exist), fs2) := by
              unfold mkdirF
              rw [g1, hexist2]
            rw [hmk2]
            dsimp only
            rw [if_pos (show errIsExist (Err.pathError "mkdirall" (String.mk path)
              Err.exist) = true from rfl)]
            exact ih fuel path cpath perm now perm2 now2 fs1 (last + pos) fs2 h3 h


/-- C4 counterexample: on a fresh FS, `MkdirAll("/a", 0o755)` at time 1
succeeds, but — contrary to the claim that the second identical call
succeeds too — the second call fails: the final `mkdir` of the whole path
surfaces the `Exist` error wrapped as `{"mkdirall", "/a"}`
(src/memfs_rw.go lines 154-156 return it instead of ignoring it). The
tree itself is unchanged by the failing second call. -/
theorem c4_mkdirAll_counterexample :
    mkdirAll newFS 20 ['/', 'a'] 0o755 1 = some (.ok (), fsAfterA) ∧
    mkdirAll fsAfterA 20 ['/', 'a'] 0o755 2
      = some (.error (.pathError "mkdirall" "/a" .exist), fsAfterA) :=
  ⟨rfl, rfl⟩

/-- C4 (amended): `MkdirAll` attempts `mkdir` on each prefix of the path,
ignoring `Exist` on the proper prefixes and surfacing other errors, but
the final `mkdir` of the whole path surfaces `Exist` as well; hence a
second identical call (with any perm and time) fails with a wrapped
`Exist` while leaving the tree exactly as the first call left it. -/
theorem c4_mkdirAll_second_exist (fs : FSH) (fuel : Nat) (p : List Char)
    (perm now perm2 now2 : Nat) (fs2 : FSH) (hwf : WFheap fs.heap)
    (h : mkdirAll fs fuel p perm now = some (.ok (), fs2)) :
    mkdirAll fs2 fuel p perm2 now2
      = some (.error (.pathError "mkdirall" (String.mk p) .exist), fs2) := by
  unfold mkdirAll at h ⊢
  exact mkdirAllLoop_second ((joinPath [['/'], p]).length + 1) fuel p (joinPath [['/'], p])
    perm now perm2 now2 fs 0 fs2 hwf h

/-- Witness for C4 (amended): the fresh FS is well formed and the theorem
applies to the first `MkdirAll("/a")` on it. -/
theorem c4_mkdirAll_second_exist_witness :
    mkdirAll fsAfterA 20 ['/', 'a'] 0o700 2
      = some (.error (.pathError "mkdirall" (String.mk ['/', 'a']) .exist), fsAfterA) := by
  refine c4_mkdirAll_second_exist newFS 20 ['/', 'a'] 0o755 1 0o700 2 fsAfterA ?_ rfl
  intro id es mt m hb de hde
  replace hb : (if (0 : Nat) = id then some (HNode.dnode [] 0 (fsModeDir ||| 0o777))
      else none) = some (HNode.dnode es mt m) := hb
  by_cases h0 : (0 : Nat) = id
  · rw [if_pos h0] at hb
    injection hb with hb2
    injection hb2 with je1 je2 je3
    rw [← je1] at hde
    cases hde
  · rw [if_neg h0] at hb
    cases hb

/-- C5: once `old` has resolved under `mustExist`, `Rename(old, new)`
fails with a wrapped `Exist` when the terminal name of `new` is already
present in the destination directory, fails with a wrapped `Permission`
when the destination parent lacks `modeWrite`, and otherwise removes the
entry from the old parent and appends it to the new parent under
`Base(new)` — which keeps every dnode's entry names unique
(src/memfs_rw.go lines 307-327). -/
theorem c5_rename (fs : FSH) (fuel : Nat) (old new : List Char) (now : Nat)
    (od : Nat) (oldFile : List Char × Nat)
    (h_old : getEntryWithParent fs.heap fs.root fuel old .mustExist
      = some (.ok (od, some oldFile))) :
    ((splitPath new).2 ≠ [] →
      ∀ nd c, getDirEnt fs.heap fs.root fuel (splitPath new).1 = some (.ok nd) →
        hGetEntry fs.heap nd (splitPath new).2 = .ok c →
        rename fs fuel old new now
          = some (.error (.pathError "rename" (String.mk new) .exist), fs)) ∧
    (∀ nd c?, getEntryWithParent fs.heap fs.root fuel new .mustNotExist
        = some (.ok (nd, c?)) →
      hMode fs.heap nd &&& canWrite = 0 →
      rename fs fuel old new now
        = some (.error (.pathError "rename" (String.mk new) .permission), fs)) ∧
    (∀ nd c? heap1 heap2,
      getEntryWithParent fs.heap fs.root fuel new .mustNotExist = some (.ok (nd, c?)) →
      hMode fs.heap nd &&& canWrite ≠ 0 →
      hRemoveEntry fs.heap od oldFile.1 now = .ok heap1 →
      hSetEntry heap1 nd (basePath new, oldFile.2) now = .ok heap2 →
      rename fs fuel old new now = some (.ok (), FSH.mk fs.root heap2 fs.nextId) ∧
        (heapNodup fs.heap → heapNodup heap2)) := by
  refine ⟨?_, ?_, ?_⟩
  · intro hne nd c hgd hok
    have hexist : getEntryWithParent fs.heap fs.root fuel new .mustNotExist
        = some (.error .exist) := by
      unfold getEntryWithParent
      dsimp only
      rw [if_neg hne, hgd]
      dsimp only
      rw [hok]
      dsimp only
      rw [if_pos rfl]
    unfold rename
    rw [h_old]
    dsimp only
    rw [hexist]
  · intro nd c? hgp hperm
    unfold rename
    rw [h_old]
    dsimp only
    rw [hgp]
    dsimp only
    rw [if_pos hperm]
  · intro nd c? heap1 heap2 hgp hw hrm hst
    constructor
    · unfold rename
      rw [h_old]
      dsimp only
      rw [hgp]
      dsimp only
      rw [if_neg hw, hrm]
      dsimp only
      rw [hst]
    · intro hnodup
      obtain ⟨hne2, hgdn, hge, -⟩ := getEntryWithParent_mustNotExist_ok hgp
      obtain ⟨es_nd, mt_nd, m_nd, hfnd, -, hfe_nd⟩ := hGetEntry_notExist_inv hge
      obtain ⟨es_od, mt_od, m_od, es_od2, hfod, -, hrf, hh1⟩ := hRemoveEntry_ok_inv hrm
      obtain ⟨es1, mt1, m1, hf1, -, hh2⟩ := hSetEntry_ok_inv hst
      have hbase : basePath new = (splitPath new).2 := basePath_eq_split new hne2
      subst hh1
      subst hh2
      have hsub2 : es_od2.Sublist es_od := removeFirst_sublist es_od oldFile.1 es_od2 hrf
      have hKN : findEntryId es1 (splitPath new).2 = none ∧ (es1.map Prod.fst).Nodup := by
        rcases hfind_hset_cases fs.heap od (.dnode es_od2 now m_od) nd with
          hcase | ⟨hcase, hndod⟩
        · rw [hcase, hfnd] at hf1
          injection hf1 with hf2
          injection hf2 with je1 je2 je3
          subst je1
          exact ⟨hfe_nd, hnodup nd es_nd mt_nd m_nd hfnd⟩
        · rw [hcase] at hf1
          injection hf1 with hf2
          injection hf2 with je1 je2 je3
          subst je1
          rw [hndod] at hfnd
          rw [hfod] at hfnd
          injection hfnd with hf3
          injection hf3 with ke1 ke2 ke3
          constructor
          · rw [findEntryId_none_iff]
            intro de hde
            have hmem : de ∈ es_od := hsub2.subset hde
            have hmem2 : de ∈ es_nd := by
              rw [← ke1]
              exact hmem
            exact (findEntryId_none_iff es_nd (splitPath new).2).mp hfe_nd de hmem2
          · exact List.Nodup.sublist (List.Sublist.map Prod.fst hsub2)
              (hnodup od es_od mt_od m_od hfod)
      obtain ⟨hK, hN⟩ := hKN
      intro id es0 mt0 m0 hb
      rcases hfind_hset_cases (hset fs.heap od (.dnode es_od2 now m_od)) nd
          (.dnode (es1 ++ [(basePath new, oldFile.2)]) now m1) id with
        hcase2 | ⟨hcase2, hid⟩
      · rw [hcase2] at hb
        rcases hfind_hset_cases fs.heap od (.dnode es_od2 now m_od) id with
          hcase3 | ⟨hcase3, hid3⟩
        · rw [hcase3] at hb
          exact hnodup id es0 mt0 m0 hb
        · rw [hcase3] at hb
          injection hb with hb2
          injection hb2 with je1 je2 je3
          rw [← je1]
          exact List.Nodup.sublist (List.Sublist.map Prod.fst hsub2)
            (hnodup od es_od mt_od m_od hfod)
      · rw [hcase2] at hb
        injection hb with hb2
        injection hb2 with je1 je2 je3
        rw [← je1]
        simp only [List.map_append, List.map_cons, List.map_nil]
        apply List.Nodup.append hN (List.nodup_singleton _)
        intro a ha hb'
        have ha2 : a = basePath new := by simpa using hb'
        obtain ⟨de, hde, hfst⟩ := List.mem_map.mp ha
        have hne3 := (findEntryId_none_iff es1 (splitPath new).2).mp hK de hde
        rw [ha2, hbase] at hfst
        exact hne3 hfst

/-- Witness for C5: on the concrete FS `fsC5`, renaming file `/a` to
`/b/c` removes `a` from the root, appends `c` to directory `b`, and
preserves name uniqueness. -/
theorem c5_rename_witness :
    rename fsC5 20 ['/', 'a'] ['/', 'b', '/', 'c'] 5
      = some (.ok (), FSH.mk 0 heapC5out 3) ∧ heapNodup heapC5out := by
  have h := c5_rename fsC5 20 ['/', 'a'] ['/', 'b', '/', 'c'] 5 0 (['a'], 1) rfl
  obtain ⟨hr, hu⟩ := h.2.2 2 none heapC5mid heapC5out rfl (by decide) rfl rfl
  refine ⟨hr, hu ?_⟩
  intro id es mt m hb
  replace hb : (if (0 : Nat) = id then
        some (HNode.dnode [(['a'], 1), (['b'], 2)] 0 (fsModeDir ||| 0o777))
      else if (1 : Nat) = id then some (HNode.inode 0 ['x'] 0o644)
      else if (2 : Nat) = id then some (HNode.dnode [] 0 (fsModeDir ||| 0o755))
      else none) = some (HNode.dnode es mt m) := hb
  by_cases h0 : (0 : Nat) = id
  · rw [if_pos h0] at hb
    injection hb with hb2
    injection hb2 with je1 je2 je3
    rw [← je1]
    decide
  · rw [if_neg h0] at hb
    by_cases h1 : (1 : Nat) = id
    · rw [if_pos h1] at hb
      simp at hb
    · rw [if_neg h1] at hb
      by_cases h2 : (2 : Nat) = id
      · rw [if_pos h2] at hb
        injection hb with hb2
        injection hb2 with je1 je2 je3
        rw [← je1]
        decide
      · rw [if_neg h2] at hb
        cases hb

end Memfs
